import Mathlib

/-!
Verification of the `random-person-name` n-gram name generator.

The Rust sources (`src/validchars.rs`, `src/char_types.rs`,
`src/ngramweights.rs`, `src/lib.rs`) are shallowly embedded below:

* machine integers (`u8`, `u32`, `usize`) become `Nat` with explicit
  bounds / wrap-arounds (`% 2^32`, `% 2^64`) where the source relies on
  checked or wrapping arithmetic;
* `f64` values are modelled by the type `FP` (an exact rational together
  with NaN and signed-infinity markers).  Arithmetic on `FP` follows the
  IEEE special-value propagation rules; rounding of finite values is not
  modelled, so finite results are exact rationals.  All zeros are
  unsigned (+0); the embedded code never divides by a negative zero;
* fallible Rust functions returning `Result<_, String>` become
  `Except String _`; functions that can also panic (out-of-bounds
  indexing) return `RResult _`, whose `panicked` constructor marks a
  Rust panic;
* unchecked `u32`/`usize` subtraction is modelled with release-profile
  (wrap-around) semantics.
-/

/-- Outcome of an embedded Rust computation that may panic (`panicked`),
return `Err` (`err`), or return `Ok` (`ok`). -/
inductive RResult (α : Type) where
  | panicked : RResult α
  | err : String → RResult α
  | ok : α → RResult α
deriving DecidableEq, Repr

deriving instance DecidableEq for Except

/-- Model of an `f64` value: NaN, a signed infinity (`inf true` = +∞),
or an exact finite rational. -/
inductive FP where
  | nan : FP
  | inf : Bool → FP
  | fin : ℚ → FP
deriving DecidableEq, Repr

namespace FP

/-- IEEE addition on the `f64` model (finite arithmetic is exact). -/
def add : FP → FP → FP
  | nan, _ => nan
  | _, nan => nan
  | inf b, inf c => if b = c then inf b else nan
  | inf b, fin _ => inf b
  | fin _, inf b => inf b
  | fin a, fin b => fin (a + b)

/-- IEEE subtraction on the `f64` model. -/
def sub : FP → FP → FP
  | nan, _ => nan
  | _, nan => nan
  | inf b, inf c => if b = c then nan else inf b
  | inf b, fin _ => inf b
  | fin _, inf b => inf (!b)
  | fin a, fin b => fin (a - b)

/-- IEEE multiplication on the `f64` model. -/
def mul : FP → FP → FP
  | nan, _ => nan
  | _, nan => nan
  | inf b, inf c => inf (b = c)
  | inf b, fin q => if q = 0 then nan else inf (b = decide (0 < q))
  | fin q, inf b => if q = 0 then nan else inf (b = decide (0 < q))
  | fin a, fin b => fin (a * b)

/-- IEEE division on the `f64` model.  All finite zeros are +0, so a
nonzero finite value divided by zero is an infinity with the sign of the
numerator. -/
def div : FP → FP → FP
  | nan, _ => nan
  | _, nan => nan
  | inf _, inf _ => nan
  | inf b, fin q => if q = 0 then inf b else inf (b = decide (0 < q))
  | fin _, inf _ => fin 0
  | fin a, fin b =>
      if b = 0 then (if a = 0 then nan else inf (decide (0 < a)))
      else fin (a / b)

/-- `f64` `<=` comparison: any comparison with NaN is false. -/
def fle : FP → FP → Bool
  | nan, _ => false
  | _, nan => false
  | inf b, inf c => b = c || !b
  | inf b, fin _ => !b
  | fin _, inf b => b
  | fin a, fin b => decide (a ≤ b)

/-- `f64::is_nan`. -/
def isNan : FP → Bool
  | nan => true
  | _ => false

/-- `Iterator::sum` over `f64` values: left fold starting from `0.0`. -/
def listSum (l : List FP) : FP := l.foldl add (fin 0)

end FP

/-- `ValidChar` (src/validchars.rs): the 29-symbol closed alphabet. -/
inductive ValidChar where
  | a | b | c | d | e | f | g | h | i | j | k | l | m
  | n | o | p | q | r | s | t | u | v | w | x | y | z
  | dash | apostrophe | null
deriving DecidableEq, Repr, Fintype

namespace ValidChar

/-- The `#[repr(u8)]` discriminant, i.e. `usize::from` on a `ValidChar`. -/
def toUsize : ValidChar → ℕ
  | .a => 0 | .b => 1 | .c => 2 | .d => 3 | .e => 4 | .f => 5
  | .g => 6 | .h => 7 | .i => 8 | .j => 9 | .k => 10 | .l => 11
  | .m => 12 | .n => 13 | .o => 14 | .p => 15 | .q => 16 | .r => 17
  | .s => 18 | .t => 19 | .u => 20 | .v => 21 | .w => 22 | .x => 23
  | .y => 24 | .z => 25 | .dash => 26 | .apostrophe => 27 | .null => 28

/-- `ValidChar::VARIANTCOUNT`. -/
def VARIANTCOUNT : ℕ := 29

/-- `ValidChar::ALLCHARS`: the variants in discriminant order. -/
def ALLCHARS : List ValidChar :=
  [.a, .b, .c, .d, .e, .f, .g, .h, .i, .j, .k, .l, .m,
   .n, .o, .p, .q, .r, .s, .t, .u, .v, .w, .x, .y, .z,
   .dash, .apostrophe, .null]

end ValidChar

/-- Model of the first character produced by Rust `char::to_lowercase`.
It is exact on ASCII, and on the only two non-ASCII code points whose
Unicode lowercase mapping begins with an ASCII character:
U+0130 (Latin capital I with dot above, lowercases to "i" + U+0307) and
U+212A (Kelvin sign, lowercases to "k").  Every other code point either
is fixed by lowercasing or maps to another non-ASCII code point, and the
encoder below sends all non-ASCII inputs to the same error result, so
modelling those cases by the identity preserves the encoder's value. -/
def rustLowerFirst (c : Char) : Char :=
  if 'A' ≤ c ∧ c ≤ 'Z' then Char.ofNat (c.toNat + 32)
  else if c = Char.ofNat 0x0130 then 'i'
  else if c = Char.ofNat 0x212A then 'k'
  else c

/-- The 26-way `match c_ident` at the end of
`impl TryFrom<&char> for ValidChar` (src/validchars.rs lines 117-145),
written as a literal chain of tests on the `u32` value. -/
def validCharOfIdent (n : ℕ) : Except String ValidChar :=
  if n = 0 then .ok .a else if n = 1 then .ok .b
  else if n = 2 then .ok .c else if n = 3 then .ok .d
  else if n = 4 then .ok .e else if n = 5 then .ok .f
  else if n = 6 then .ok .g else if n = 7 then .ok .h
  else if n = 8 then .ok .i else if n = 9 then .ok .j
  else if n = 10 then .ok .k else if n = 11 then .ok .l
  else if n = 12 then .ok .m else if n = 13 then .ok .n
  else if n = 14 then .ok .o else if n = 15 then .ok .p
  else if n = 16 then .ok .q else if n = 17 then .ok .r
  else if n = 18 then .ok .s else if n = 19 then .ok .t
  else if n = 20 then .ok .u else if n = 21 then .ok .v
  else if n = 22 then .ok .w else if n = 23 then .ok .x
  else if n = 24 then .ok .y else if n = 25 then .ok .z
  else .error "is an invalid character"

/-- `impl TryFrom<&char> for ValidChar` (src/validchars.rs lines
105-147).  The `u32` subtraction `lowered - 'a'` is modelled with
release-profile wrap-around semantics (`% 2^32`). -/
def ValidChar.tryFromChar (c : Char) : Except String ValidChar :=
  let input_char := rustLowerFirst c
  if input_char = '-' then .ok .dash
  else if input_char = '\'' then .ok .apostrophe
  else if input_char = Char.ofNat 0 then .ok .null
  else validCharOfIdent ((input_char.toNat + 2 ^ 32 - 97) % 2 ^ 32)

/-- `impl From<ValidChar> for char` (src/validchars.rs lines 149-158). -/
def ValidChar.toChar (vc : ValidChar) : Char :=
  if vc = .apostrophe then '\''
  else if vc = .dash then '-'
  else if vc = .null then Char.ofNat 0
  else Char.ofNat (vc.toUsize + 97)

/-- `CharType` (src/char_types.rs): the 10 phonetic categories. -/
inductive CharType where
  | VowelRoot | VowelModifier | SemiPunctuation | Plosive | Fricative
  | Affricate | Nasal | Approximant | Silent | Null
deriving DecidableEq, Repr

namespace CharType

/-- The `#[repr(u8)]` discriminant of a `CharType`. -/
def toUsize : CharType → ℕ
  | .VowelRoot => 0 | .VowelModifier => 1 | .SemiPunctuation => 2
  | .Plosive => 3 | .Fricative => 4 | .Affricate => 5
  | .Nasal => 6 | .Approximant => 7 | .Silent => 8 | .Null => 9

/-- `CharType::VARIANTCOUNT`. -/
def VARIANTCOUNT : ℕ := 10

end CharType

/-- A fixed `[ValidChar; 4]` classification window.  `s3` is the most
recent symbol: the source classifier iterates the window reversed, so
its first `next()` yields `s3`, then `s2`, `s1`, `s0`. -/
structure Window4 where
  s0 : ValidChar
  s1 : ValidChar
  s2 : ValidChar
  s3 : ValidChar
deriving DecidableEq, Repr

/-- `impl TryFrom<&[ValidChar;4]> for CharType` (src/char_types.rs lines
45-127).  For a fixed 4-element window the reversed iterator always has
an element available for each of the at most four `next()` calls, so the
source's `else` branches for an exhausted iterator (length-0 guard, the
`Approximant` fallback for `y`, and the other context-free fallbacks)
are unreachable and the function is total. -/
def CharType.tryFromWindow (w : Window4) : CharType :=
  match w.s3 with
  | .p | .b | .t | .k | .d | .q => .Plosive
  | .f | .s | .v | .x | .z => .Fricative
  | .j => .Affricate
  | .w | .r | .l => .Approximant
  | .m | .n => .Nasal
  | .apostrophe | .dash => .SemiPunctuation
  | .null => .Null
  | .c => match w.s2 with
      | .s => .Silent
      | _ => .Plosive
  | .h => match w.s2 with
      | .c => .Affricate
      | .t => .Fricative
      | .g => .Silent
      | _ => .Fricative
  | .g => match w.s2 with
      | .n => .Nasal
      | _ => .Plosive
  | .y => match w.s2 with
      | .a | .e | .i | .o | .u => .VowelModifier
      | _ => .VowelRoot
  | .a | .i | .o | .u => match w.s2 with
      | .a | .e | .i | .o | .u => .VowelModifier
      | _ => .VowelRoot
  | .e => match w.s2 with
      | .a | .e | .i | .o | .u => .VowelModifier
      | c1 =>
          -- digraph transparency: for (c2, c1) ∈ {(t,h),(c,h),(s,h)}
          -- the decision symbol is the one before the digraph
          let c2 := w.s1
          let dec := match c2, c1 with
            | .t, .h => w.s0
            | .c, .h => w.s0
            | .s, .h => w.s0
            | _, _ => c2
          match dec with
          | .a | .e | .i | .o | .u => .VowelModifier
          | _ => .VowelRoot

/-- `usize` wrap-around subtraction `a - b` (release-profile semantics),
for `a, b < 2^64`. -/
def rustUsizeSub (a b : ℕ) : ℕ := (a + 2 ^ 64 - b) % 2 ^ 64

/-- `NGramWeights` (src/ngramweights.rs).  A row holds `V` 8-bit
counters (values kept `≤ 255` by the checked increments) plus a `usize`
row sum.  Rows and columns are modelled as total functions on indices;
the source only reads row indices produced by `get_row_index` and
columns `< V`. -/
structure NGramWeights where
  weights : ℕ → ℕ → ℕ
  sum : ℕ → ℕ
  finalized : Bool

namespace NGramWeights

/-- `NGramWeights::new()`: all-zero counters, not finalized.  The
constructor's `V^N` overflow panic guard is checked by the orchestrator
model (`NameExperiments.new`). -/
def new : NGramWeights := ⟨fun _ _ => 0, fun _ => 0, false⟩

/-- The row index value computed by `NGramWeights::get_row_index`
(src/ngramweights.rs lines 31-35): `Σ_{i<N} V^i * usize::from(char_seq[i])`. -/
def row_index_val (N V : ℕ) (char_seq : List ℕ) : ℕ :=
  ∑ i ∈ Finset.range N, V ^ i * char_seq.getD i 0

/-- `NGramWeights::get_row_index` (src/ngramweights.rs lines 27-41).
Callers pass the context already mapped through `usize::from` (the
generic `T` with `usize: From<T>`). -/
def get_row_index (N V : ℕ) (char_seq : List ℕ) : Except String ℕ :=
  if char_seq.length < N then
    .error "Not enough characters given to determine row"
  else
    .ok (row_index_val N V char_seq)

/-- `NGramWeights::get_row_and_sum` (src/ngramweights.rs lines 48-53). -/
def get_row_and_sum (N V : ℕ) (t : NGramWeights) (char_seq : List ℕ) :
    Except String ((ℕ → ℕ) × ℕ) :=
  match get_row_index N V char_seq with
  | .error e => .error e
  | .ok index => .ok (t.weights index, t.sum index)

/-- `NGramWeights::add_to_weights` (src/ngramweights.rs lines 83-94),
returning the result together with the updated table.  The counter
increment is `u8::checked_add` (fails at 255 before mutating); the sum
increment is `usize::checked_add` (fails at `2^64 - 1`, after the
counter was already written, matching the source's early return). -/
def add_to_weights (N V : ℕ) (t : NGramWeights) (sequence : List ℕ)
    (following_char : ℕ) : Except String Unit × NGramWeights :=
  if t.finalized then
    (.error "Cannot add to weights after finalization", t)
  else if sequence.length < N then
    (.error "Not enough characters in input character sequence", t)
  else
    -- the checks above guarantee `get_mut_row_and_sum`'s `expect` succeeds
    let index := row_index_val N V sequence
    let column := following_char
    let c := t.weights index column
    if 255 ≤ c then
      (.error "Weights max capacity reached", t)
    else
      let t1 : NGramWeights :=
        { t with weights := fun r c2 =>
            if r = index ∧ c2 = column then c + 1 else t.weights r c2 }
      if 2 ^ 64 - 1 ≤ t.sum index then
        (.error "Max ngram experiments reached", t1)
      else
        (.ok (), { t1 with sum := fun r =>
            if r = index then t.sum index + 1 else t.sum r })

end NGramWeights

/-- `TestType` (src/lib.rs lines 66-70). -/
inductive TestType where
  | Pos
  | Neg
deriving DecidableEq, Repr

/-- `NameExperiments` (src/lib.rs lines 79-85).  The context length `N`
is passed to each operation rather than indexing the structure.
`name_sizes` is the length histogram (bucket list, total count). -/
structure NameExperiments where
  positive_char_samples : NGramWeights
  negative_char_samples : NGramWeights
  positive_char_type_samples : NGramWeights
  negative_char_type_samples : NGramWeights
  name_sizes : List ℕ × ℕ

namespace NameExperiments

/-- `NameExperiments::new()` (src/lib.rs lines 89-103): panics for
`N < 2` or when `29^N` overflows `usize`. -/
def new (N : ℕ) : RResult NameExperiments :=
  if N < 2 then .panicked
  else if 2 ^ 64 ≤ 29 ^ N then .panicked
  else .ok
    { positive_char_samples := NGramWeights.new
      negative_char_samples := NGramWeights.new
      positive_char_type_samples := NGramWeights.new
      negative_char_type_samples := NGramWeights.new
      name_sizes := ([0], 0) }

/-- The freshly constructed experiment state (`new`'s success value). -/
def fresh : NameExperiments :=
  { positive_char_samples := NGramWeights.new
    negative_char_samples := NGramWeights.new
    positive_char_type_samples := NGramWeights.new
    negative_char_type_samples := NGramWeights.new
    name_sizes := ([0], 0) }

/-- `NameExperiments::add_to_sizes_distribution` (src/lib.rs lines
104-110): grow the bucket list with zeros until `chars.len()` is a
valid index, then bump that bucket and the total. -/
def add_to_sizes_distribution (ns : List ℕ × ℕ) (len : ℕ) :
    List ℕ × ℕ :=
  let grown := if len + 1 ≤ ns.1.length then ns.1
    else ns.1 ++ List.replicate (len + 1 - ns.1.length) 0
  (grown.set len (grown.getD len 0 + 1), ns.2 + 1)

end NameExperiments

/-- `Result::unwrap_or` on the embedded `Except`. -/
def Except.unwrapOr (e : Except String α) (d : α) : α :=
  match e with
  | .ok v => v
  | .error _ => d

/-- The `while let Some(p_char) = text[i]` scan in
`NameExperiments::read_sample` (src/lib.rs lines 123-131): convert
characters up to the first `None` slot (invalid ones map to `null`).
Reaching the end of the buffer without meeting a `None` indexes out of
bounds, i.e. panics. -/
def scan_chars : List (Option Char) → RResult (List ValidChar)
  | [] => .panicked
  | none :: _ => .ok []
  | some c :: rest =>
      match scan_chars rest with
      | .ok l => .ok ((ValidChar.tryFromChar c).unwrapOr .null :: l)
      | .err e => .err e
      | .panicked => .panicked

/-- The lookback window built for position `i` of the derived
`valid_chars` during ingestion (src/lib.rs lines 140-144):
`char_slice[4-(j+1)] = valid_chars[i-(j+1)]` for `j+1 ≤ i`, null
elsewhere.  Note slot 3 receives `valid_chars[i-1]`, not
`valid_chars[i]`. -/
def train_char_window (vcs : List ValidChar) (i : ℕ) : Window4 :=
  { s0 := if 4 ≤ i then vcs.getD (i - 4) .null else .null
    s1 := if 3 ≤ i then vcs.getD (i - 3) .null else .null
    s2 := if 2 ≤ i then vcs.getD (i - 2) .null else .null
    s3 := if 1 ≤ i then vcs.getD (i - 1) .null else .null }

/-- The `char_types` stream recorded during ingestion (src/lib.rs lines
138-147): one classifier call per position of `valid_chars`. -/
def sample_char_types (vcs : List ValidChar) : List CharType :=
  (List.range vcs.length).map
    (fun i => CharType.tryFromWindow (train_char_window vcs i))

/-- One step of the character-level n-gram loop (src/lib.rs lines
124-131): observe `(window, next)` in the table (errors ignored), then
rotate the window left and set its last slot to `next`. -/
def char_ngram_step (N : ℕ) (st : List ValidChar × NGramWeights)
    (p_char : ValidChar) : List ValidChar × NGramWeights :=
  let t2 := (NGramWeights.add_to_weights N 29 st.2
      (st.1.map ValidChar.toUsize) p_char.toUsize).2
  (st.1.tail ++ [p_char], t2)

/-- One step of the category-level n-gram loop (src/lib.rs lines
150-155). -/
def type_ngram_step (N : ℕ) (st : List CharType × NGramWeights)
    (p_char : CharType) : List CharType × NGramWeights :=
  let t2 := (NGramWeights.add_to_weights N 10 st.2
      (st.1.map CharType.toUsize) p_char.toUsize).2
  (st.1.tail ++ [p_char], t2)

/-- `NameExperiments::read_sample` (src/lib.rs lines 111-158).  The
source interleaves the character scan with the character-level n-gram
updates; here the scan (`scan_chars`) is performed first and the n-gram
updates fold over its result, which observes the same (window, next)
pairs in the same order.  The classifier call can never fail on a
4-element window, so the `?` at line 145 never propagates. -/
def NameExperiments.read_sample (N : ℕ) (exp : NameExperiments)
    (text : List (Option Char)) (test_type : TestType) :
    RResult NameExperiments :=
  match scan_chars text with
  | .panicked => .panicked
  | .err e => .err e
  | .ok valid_chars =>
      let char_weights := match test_type with
        | .Pos => exp.positive_char_samples
        | .Neg => exp.negative_char_samples
      let char_type_weights := match test_type with
        | .Pos => exp.positive_char_type_samples
        | .Neg => exp.negative_char_type_samples
      -- add ngrams of characters from sample to weights
      let st := valid_chars.foldl (char_ngram_step N)
        (List.replicate N .null, char_weights)
      -- the last ngram terminates the word
      let cw := (NGramWeights.add_to_weights N 29 st.2
        (st.1.map ValidChar.toUsize) ValidChar.null.toUsize).2
      -- make the array of character types, then add their ngrams
      let char_types := sample_char_types valid_chars
      let tw := (char_types.foldl (type_ngram_step N)
        (List.replicate N .Null, char_type_weights)).2
      let ns := NameExperiments.add_to_sizes_distribution
        exp.name_sizes valid_chars.length
      .ok (match test_type with
        | .Pos =>
            { exp with
              positive_char_samples := cw
              positive_char_type_samples := tw
              name_sizes := ns }
        | .Neg =>
            { exp with
              negative_char_samples := cw
              negative_char_type_samples := tw
              name_sizes := ns })

/-- `NameExperiments::read_positive_sample` (src/lib.rs lines 160-162). -/
def NameExperiments.read_positive_sample (N : ℕ) (exp : NameExperiments)
    (text : List (Option Char)) : RResult NameExperiments :=
  exp.read_sample N text .Pos

/-- `NameExperiments::read_negative_sample` (src/lib.rs lines 164-166). -/
def NameExperiments.read_negative_sample (N : ℕ) (exp : NameExperiments)
    (text : List (Option Char)) : RResult NameExperiments :=
  exp.read_sample N text .Neg

/-- The symbol-level combined probability (src/lib.rs lines 208-216):
Laplace-eased positive likelihood, times an inverse-negative-evidence
factor unless there is no negative evidence at all.  Note the source
uses `pos_easing_scale` in the numerator of the negative factor.  The
`usize` subtraction `neg_char_sum - neg_chars[i]` wraps on underflow. -/
def combined_char_prob (pos_chars neg_chars : ℕ → ℕ)
    (pos_char_sum neg_char_sum : ℕ) (posE negE : ℚ) (i : ℕ) : FP :=
  let inv_neg_chars_p := rustUsizeSub neg_char_sum (neg_chars i)
  if neg_char_sum = 0 then
    FP.div (.fin (pos_chars i + posE)) (.fin (pos_char_sum + posE * 29))
  else
    FP.mul
      (FP.div (.fin (pos_chars i + posE)) (.fin (pos_char_sum + posE * 29)))
      (FP.div (.fin (inv_neg_chars_p + posE)) (.fin (neg_char_sum + negE * 29)))

/-- The category-level combined probability (src/lib.rs lines 225-229):
both factors are always applied — there is no `neg_char_type_sum == 0`
special case at this level. -/
def combined_type_prob (pos_char_types neg_char_types : ℕ → ℕ)
    (pos_char_type_sum neg_char_type_sum : ℕ) (posE negE : ℚ) (i : ℕ) : FP :=
  let inv_neg_char_type_p :=
    rustUsizeSub neg_char_type_sum (neg_char_types i)
  FP.mul
    (FP.div (.fin (pos_char_types i + posE))
      (.fin (pos_char_type_sum + posE * 10)))
    (FP.div (.fin (inv_neg_char_type_p + negE))
      (.fin (neg_char_type_sum + negE * 10)))

/-- The diagnostic 4-window built from the tail of `char_seq`
(src/lib.rs lines 198-201): slots 2,1,0 take the last three symbols
(null when the sequence is shorter; with release semantics the
underflowing index `len-1-i` wraps to a huge value, `get` returns
`None`, and `unwrap_or` yields null), slot 3 stays null. -/
def diag_window (char_seq : List ValidChar) : Window4 :=
  let L := char_seq.length
  { s0 := if 3 ≤ L then char_seq.getD (L - 3) .null else .null
    s1 := if 2 ≤ L then char_seq.getD (L - 2) .null else .null
    s2 := if 1 ≤ L then char_seq.getD (L - 1) .null else .null
    s3 := .null }

/-- The symbol-and-category stage of
`NameExperiments::generate_probability_distribution` (src/lib.rs lines
198-233): per-candidate combined probability after both the symbol
table factor and the category table factor of the candidate's bucket.
The source's `char_type_mapping` buckets are flattened: pushing each
candidate `i` into the bucket of its mapped category and then scaling
every bucket member by that category's probability multiplies entry `i`
by exactly the category probability of `i`'s mapped category. -/
def char_type_combined_probs (N : ℕ) (exp : NameExperiments)
    (char_seq : List ValidChar) (char_type_seq : List CharType)
    (posE negE : ℚ) : Except String (List FP × Window4) :=
  let w0 := diag_window char_seq
  match NGramWeights.get_row_and_sum N 29 exp.positive_char_samples
      (char_seq.map ValidChar.toUsize) with
  | .error e => .error e
  | .ok (pos_chars, pos_char_sum) =>
  match NGramWeights.get_row_and_sum N 29 exp.negative_char_samples
      (char_seq.map ValidChar.toUsize) with
  | .error e => .error e
  | .ok (neg_chars, neg_char_sum) =>
  match NGramWeights.get_row_and_sum N 10 exp.positive_char_type_samples
      (char_type_seq.map CharType.toUsize) with
  | .error e => .error e
  | .ok (pos_char_types, pos_char_type_sum) =>
  match NGramWeights.get_row_and_sum N 10 exp.negative_char_type_samples
      (char_type_seq.map CharType.toUsize) with
  | .error e => .error e
  | .ok (neg_char_types, neg_char_type_sum) =>
    let probs := (List.range 29).map (fun i =>
      let mapped_char_type := CharType.tryFromWindow
        { w0 with s3 := ValidChar.ALLCHARS.getD i .null }
      FP.mul
        (combined_char_prob pos_chars neg_chars pos_char_sum
          neg_char_sum posE negE i)
        (combined_type_prob pos_char_types neg_char_types
          pos_char_type_sum neg_char_type_sum posE negE
          mapped_char_type.toUsize))
    -- after the loop the last candidate written into slot 3 was
    -- ALLCHARS[28] = null, so the returned window has s3 = null
    .ok (probs, { w0 with s3 := ValidChar.ALLCHARS.getD 28 .null })

/-- The name-ending statistics stage (src/lib.rs lines 234-244).
`name_sizes.0[0..character_count]` panics when `character_count`
exceeds the bucket-list length; otherwise every non-terminator entry is
scaled by `(1 - P(end before here)) / 29` and the terminator entry
(index 28, the last) by `P(end before here)`, where `P(end before
here)` sums `bucket/total` over the buckets for lengths strictly below
`character_count`. -/
def apply_length_stats (name_sizes : List ℕ × ℕ) (character_count : ℕ)
    (probs : List FP) : RResult (List FP) :=
  if name_sizes.1.length < character_count then .panicked
  else
    let probability_end_here := FP.listSum
      ((name_sizes.1.take character_count).map
        (fun x : ℕ => FP.div (.fin (x : ℚ)) (.fin (name_sizes.2 : ℚ))))
    let probability_ends_in_future := FP.sub (.fin 1) probability_end_here
    -- `for i in 0..len-1` scales every entry but the last by
    -- `ends_in_future / 29`; the last entry is scaled by `end_here`
    .ok ((List.range probs.length).map (fun i =>
      if i + 1 = probs.length then
        FP.mul (probs.getD i .nan) probability_end_here
      else
        FP.mul (probs.getD i .nan)
          (FP.div probability_ends_in_future (.fin 29))))

/-- `NameExperiments::generate_probability_distribution` (src/lib.rs
lines 187-258). -/
def NameExperiments.generate_probability_distribution (N : ℕ)
    (exp : NameExperiments) (char_seq : List ValidChar)
    (char_type_seq : List CharType) (character_count : ℕ)
    (pos_easing_scale neg_easing_scale : Option ℚ)
    (square_probabilities : Option Bool) :
    RResult (List FP × FP × Window4) :=
  let posE := pos_easing_scale.getD 1
  let negE := neg_easing_scale.getD 1
  match char_type_combined_probs N exp char_seq char_type_seq posE negE with
  | .error e => .err e
  | .ok (probs0, w) =>
  match apply_length_stats exp.name_sizes character_count probs0 with
  | .panicked => .panicked
  | .err e => .err e
  | .ok probs1 =>
    let probs2 := if square_probabilities.getD true
      then probs1.map (fun p => FP.mul p p) else probs1
    let sum_of_probabilities := FP.listSum probs2
    if sum_of_probabilities.isNan then
      .err "Sum of probabilities produced a nan"
    else
      .ok (probs2, sum_of_probabilities, w)

/-- The `find_map` walk in `NameExperiments::guess_next_char`
(src/lib.rs lines 279-284): return the first index whose probability is
`>=` the remaining pick, subtracting each smaller entry from the pick.
With a NaN entry both the comparison and the subtraction propagate as
in `f64`. -/
def pick_index : List FP → FP → ℕ → Option ℕ
  | [], _, _ => none
  | p :: rest, random_pick, i =>
      if FP.fle random_pick p then some i
      else pick_index rest (FP.sub random_pick p) (i + 1)

/-- `NameExperiments::guess_next_char` (src/lib.rs lines 267-288).  The
random draw `fastrand::f64()` is supplied as the parameter `r`
(contract: `0 ≤ r < 1`). -/
def NameExperiments.guess_next_char (N : ℕ) (exp : NameExperiments)
    (r : ℚ) (char_seq : List ValidChar) (char_type_seq : List CharType)
    (current_char_count : ℕ) : RResult (ValidChar × CharType) :=
  match exp.generate_probability_distribution N char_seq char_type_seq
      current_char_count none none none with
  | .panicked => .panicked
  | .err e => .err e
  | .ok (char_probabilities, sum_of_probabilities, char_4_sequence) =>
    match pick_index char_probabilities
        (FP.mul (.fin r) sum_of_probabilities) 0 with
    | none => .err "Random pick failed to pick a value"
    | some index_pick =>
        let picked := ValidChar.ALLCHARS.getD index_pick .null
        .ok (picked, CharType.tryFromWindow
          { char_4_sequence with s3 := picked })

/-- The `while` loop of `NameExperiments::build_random_name`
(src/lib.rs lines 298-305), with an explicit fuel counter.  `picks k`
is the `k`-th value drawn from `fastrand::f64()`.  The guard is exactly
the source's: continue while the guessed character is not the
terminator and the name length differs from the bound.  `none` means
the fuel ran out with the guard still true; the loop itself never
exits any other way. -/
def build_name_loop (N : ℕ) (exp : NameExperiments) (picks : ℕ → ℚ)
    (hard_stop : ℕ) : ℕ → List ValidChar → List CharType →
    List Char → ℕ → ValidChar → CharType → Option (RResult (List Char))
  | fuel, char_array, char_type_array, name_string, k,
      next_char, next_char_type =>
    if next_char ≠ ValidChar.null ∧ name_string.length ≠ hard_stop then
      match fuel with
      | 0 => none
      | fuel + 1 =>
          let name2 := name_string ++ [next_char.toChar]
          let char_array2 := char_array.tail ++ [next_char]
          let char_type_array2 := char_type_array.tail ++ [next_char_type]
          match exp.guess_next_char N (picks k) char_array2
              char_type_array2 name2.length with
          | .panicked => some .panicked
          | .err e => some (.err e)
          | .ok (nc, nt) =>
              build_name_loop N exp picks hard_stop fuel char_array2
                char_type_array2 name2 (k + 1) nc nt
    else some (.ok name_string)

/-- `NameExperiments::build_random_name` (src/lib.rs lines 293-307).
The loop is run with fuel `hard_stop + 1`, which the bounded-termination
theorem shows is never exhausted. -/
def NameExperiments.build_random_name (N : ℕ) (exp : NameExperiments)
    (picks : ℕ → ℚ) (hard_stop : Option ℕ) :
    Option (RResult (List Char)) :=
  let stop := hard_stop.getD 16
  let char_type_array : List CharType := List.replicate N .Null
  let char_array : List ValidChar := List.replicate N .null
  match exp.guess_next_char N (picks 0) char_array char_type_array 0 with
  | .panicked => some .panicked
  | .err e => some (.err e)
  | .ok (next_char, next_char_type) =>
      build_name_loop N exp picks stop (stop + 1) char_array
        char_type_array [] 1 next_char next_char_type

/-- Extract the success state of an embedded stateful call, with a
default for the failure cases. -/
def RResult.stateD (r : RResult α) (d : α) : α :=
  match r with
  | .ok v => v
  | _ => d

/-- `Except.isOk` as a plain boolean. -/
def exceptIsOk (e : Except String α) : Bool :=
  match e with
  | .ok _ => true
  | .error _ => false

/-- The counter for column `c` in a `get_row_and_sum` result (0 on
error). -/
def exceptRowCount (e : Except String ((ℕ → ℕ) × ℕ)) (c : ℕ) : ℕ :=
  match e with
  | .ok (row, _) => row c
  | .error _ => 0

/-- The stored row sum in a `get_row_and_sum` result (0 on error). -/
def exceptRowSum (e : Except String ((ℕ → ℕ) × ℕ)) : ℕ :=
  match e with
  | .ok (_, s) => s
  | .error _ => 0

/-- Entry `i` of the probability list in a
`generate_probability_distribution` result (NaN on failure). -/
def distEntry (r : RResult (List FP × FP × Window4)) (i : ℕ) : FP :=
  match r with
  | .ok (l, _, _) => l.getD i .nan
  | _ => .nan

/-- Entry `i` of a `char_type_combined_probs` result (NaN on failure). -/
def ctpEntry (e : Except String (List FP × Window4)) (i : ℕ) : FP :=
  match e with
  | .ok (l, _) => l.getD i .nan
  | .error _ => .nan

/-- Whether a `generate_probability_distribution` result succeeded with
a finite, strictly positive probability sum. -/
def distSumPos (r : RResult (List FP × FP × Window4)) : Bool :=
  match r with
  | .ok (_, .fin q, _) => decide (0 < q)
  | _ => false

/-- `k` successive `add_to_weights` calls with the same
`(context, next)` pair, starting from table `t`. -/
def addK (N V : ℕ) (t : NGramWeights) (seq : List ℕ) (next : ℕ) :
    ℕ → NGramWeights
  | 0 => t
  | k + 1 => (NGramWeights.add_to_weights N V (addK N V t seq next k)
      seq next).2

/-- Experiment states reachable through the public API: the fresh state
plus any number of successful sample ingestions. -/
inductive NameExperiments.Reachable (N : ℕ) : NameExperiments → Prop
  | base : NameExperiments.Reachable N NameExperiments.fresh
  | step (exp exp2 : NameExperiments) (text : List (Option Char))
      (tt : TestType) : NameExperiments.Reachable N exp →
      exp.read_sample N text tt = .ok exp2 →
      NameExperiments.Reachable N exp2

/-- A concrete trained state: the single positive sample "a" with
`N = 2`. -/
def expA : NameExperiments :=
  (NameExperiments.fresh.read_sample 2 [some 'a', none] .Pos).stateD
    NameExperiments.fresh

/-- A concrete trained state with a mixed length histogram: two empty
positive samples and three positive samples "a", with `N = 2`.  Its
histogram is `([2, 3], 5)`. -/
def expAnn : NameExperiments :=
  let r1 := (NameExperiments.fresh.read_sample 2 [none] .Pos).stateD
    NameExperiments.fresh
  let r2 := (r1.read_sample 2 [none] .Pos).stateD r1
  let r3 := (r2.read_sample 2 [some 'a', none] .Pos).stateD r2
  let r4 := (r3.read_sample 2 [some 'a', none] .Pos).stateD r3
  (r4.read_sample 2 [some 'a', none] .Pos).stateD r4

/-- Modelled from the spec for comparison with the source's
`get_row_index` (claim C3): the base-V positional encoding in which the
most recent symbol of the context — the one stored at the *end* of the
rolling window, slot `N-1` — contributes the lowest-order digit. -/
def row_index_spec_recent_low (N V : ℕ) (char_seq : List ℕ) : ℕ :=
  ∑ i ∈ Finset.range N, V ^ i * char_seq.getD (N - 1 - i) 0

/-- Modelled from the spec for comparison with the source's
`train_char_window` (claim C2): the 4-symbol window for position `p`
whose most recent element (slot 3) is the sample's symbol *at* position
`p`, with null padding past the start of the sequence. -/
def claim_char_window (vcs : List ValidChar) (p : ℕ) : Window4 :=
  { s0 := if 3 ≤ p then vcs.getD (p - 3) .null else .null
    s1 := if 2 ≤ p then vcs.getD (p - 2) .null else .null
    s2 := if 1 ≤ p then vcs.getD (p - 1) .null else .null
    s3 := vcs.getD p .null }

/-- The rational carried by a finite `FP` value (0 for NaN/infinity). -/
def FP.toQ : FP → ℚ
  | .fin q => q
  | _ => 0

/-- Claim C6, counterexample: for the window of a leading `y` (all
predecessor slots null padding) the classifier returns `VowelRoot`, not
`Approximant` as claimed — the null padding in the 1-before slot takes
the non-vowel branch of the `y` rule. -/
theorem c6_leading_y_counterexample :
    CharType.tryFromWindow ⟨.null, .null, .null, .y⟩ = CharType.VowelRoot ∧
    CharType.VowelRoot ≠ CharType.Approximant := by
  decide

/-- Claim C6 (amended): for any 4-symbol window whose most recent
symbol is `y` and whose 1-before slot is the null/terminator padding
(i.e. `y` is the very first symbol of the sequence), the classifier
returns `VowelRoot`; the source's `Approximant` fallback for an absent
predecessor is unreachable for fixed 4-slot windows. -/
theorem c6_leading_y_amended :
    ∀ v0 v1 : ValidChar,
      CharType.tryFromWindow ⟨v0, v1, .null, .y⟩ = CharType.VowelRoot := by
  decide

/-- Claim C3, counterexample: for the 2-symbol context `[a, b]` (most
recent symbol `b` stored at the end of the window), `get_row_index`
returns `0·29^0 + 1·29^1 = 29`, whereas the claimed encoding — most
recent symbol in the lowest-order position — gives `1`. -/
theorem c3_row_index_counterexample :
    NGramWeights.get_row_index 2 29
      ([ValidChar.a, ValidChar.b].map ValidChar.toUsize) = .ok 29 ∧
    row_index_spec_recent_low 2 29
      ([ValidChar.a, ValidChar.b].map ValidChar.toUsize) = 1 ∧
    (29 : ℕ) ≠ 1 := by
  decide

/-- Claim C4, counterexample: on the fresh model (whose negative
category table row sum is 0, i.e. no negative evidence at all), the
combined probability of candidate 0 after the category stage is
`(1/29)·(1/100)` — the category level multiplied in the negative factor
`1/10` — whereas omitting the negative factor at the category level, as
claimed, would give `(1/29)·(1/10)`. -/
theorem c4_negative_factor_counterexample :
    NameExperiments.fresh.negative_char_type_samples.sum 99 = 0 ∧
    ctpEntry (char_type_combined_probs 2 NameExperiments.fresh
      [.null, .null] [.Null, .Null] 1 1) 0 = .fin (1/2900) ∧
    combined_char_prob (fun _ => 0) (fun _ => 0) 0 0 1 1 0 =
      .fin (1/29) ∧
    (1/2900 : ℚ) ≠ 1/29 * (1/10) := by
  refine ⟨rfl, ?_, ?_, by norm_num⟩
  · norm_num [ctpEntry, char_type_combined_probs, NGramWeights.get_row_and_sum,
      NGramWeights.get_row_index, NGramWeights.row_index_val,
      NameExperiments.fresh, NGramWeights.new, combined_char_prob,
      combined_type_prob, FP.div, FP.mul, rustUsizeSub, diag_window,
      List.range_succ, CharType.tryFromWindow]
  · norm_num [combined_char_prob, FP.div, rustUsizeSub]

/-- Claim C7, counterexample: U+212A (the Kelvin sign) is outside the
set of 26 letters (either case), dash, apostrophe and the terminator,
yet encoding it succeeds with `ValidChar::k`, because Rust's
`to_lowercase` maps it to `k` before the range test. -/
theorem c7_encode_invalid_counterexample :
    ValidChar.tryFromChar (Char.ofNat 0x212A) = .ok ValidChar.k ∧
    ¬(('a' ≤ Char.ofNat 0x212A ∧ Char.ofNat 0x212A ≤ 'z') ∨
      ('A' ≤ Char.ofNat 0x212A ∧ Char.ofNat 0x212A ≤ 'Z') ∨
      Char.ofNat 0x212A = '-' ∨ Char.ofNat 0x212A = '\'' ∨
      Char.ofNat 0x212A = Char.ofNat 0) := by
  decide

/-- Claim C10: `read_sample` scans the input buffer by unchecked
indexing until the first `None` slot, so every input buffer containing
no `None` entry makes ingestion index out of bounds (panic) instead of
stopping at the buffer's end or returning an error. -/
theorem c10_ingest_unterminated_panics :
    ∀ (text : List (Option Char)), (∀ x ∈ text, x ≠ none) →
      scan_chars text = .panicked ∧
      ∀ (N : ℕ) (exp : NameExperiments) (tt : TestType),
        exp.read_sample N text tt = .panicked := by
  intro text h
  have hscan : scan_chars text = .panicked := by
    induction text with
    | nil => rfl
    | cons hd tl ih =>
        cases hd with
        | none => exact absurd rfl (h none (List.mem_cons_self _ _))
        | some c =>
            have htl : ∀ x ∈ tl, x ≠ none :=
              fun x hx => h x (List.mem_cons_of_mem _ hx)
            have hrec := ih htl
            simp [scan_chars, hrec]
  refine ⟨hscan, ?_⟩
  intro N exp tt
  simp [NameExperiments.read_sample, hscan]

/-- Claim C10, witness: a concrete buffer with no empty slot panics in
`scan_chars` and in `read_sample`. -/
theorem c10_ingest_unterminated_witness :
    scan_chars [some 'a'] = .panicked ∧
    NameExperiments.fresh.read_sample 2 [some 'a'] .Pos = .panicked := by
  have h := c10_ingest_unterminated_panics [some 'a'] (by decide)
  exact ⟨h.1, h.2 2 NameExperiments.fresh .Pos⟩

theorem FP.div_fin_fin {a b : ℚ} (h : b ≠ 0) :
    FP.div (.fin a) (.fin b) = .fin (a / b) := by
  simp [FP.div, h]

theorem FP.foldl_add_fin (l : List ℚ) (q : ℚ) :
    (l.map FP.fin).foldl FP.add (.fin q) = .fin (q + l.sum) := by
  induction l generalizing q with
  | nil => simp
  | cons x xs ih => simp [FP.add, ih, add_assoc]

theorem FP.listSum_map_fin (l : List ℚ) :
    FP.listSum (l.map FP.fin) = .fin l.sum := by
  simp [FP.listSum, FP.foldl_add_fin]

theorem map_fin_toQ (l : List FP) (h : ∀ p ∈ l, ∃ q, p = .fin q) :
    (l.map FP.toQ).map FP.fin = l := by
  induction l with
  | nil => rfl
  | cons x xs ih =>
      obtain ⟨q, hq⟩ := h x (List.mem_cons_self _ _)
      subst hq
      simp only [List.map_cons, FP.toQ]
      exact congrArg _ (ih fun p hp => h p (List.mem_cons_of_mem _ hp))

theorem list_sum_map_div (l : List ℚ) (t : ℚ) :
    (l.map (fun x => x / t)).sum = l.sum / t := by
  induction l with
  | nil => simp
  | cons x xs ih => simp [ih, add_div]

theorem take_map_cast_sum (l : List ℕ) (cc : ℕ) (h : cc ≤ l.length) :
    ((l.take cc).map (fun x : ℕ => (x : ℚ))).sum =
      ∑ k ∈ Finset.range cc, (l.getD k 0 : ℚ) := by
  induction l generalizing cc with
  | nil =>
      have : cc = 0 := by simpa using h
      subst this
      simp
  | cons x xs ih =>
      cases cc with
      | zero => simp
      | succ c =>
          have hc : c ≤ xs.length := by simpa using h
          rw [Finset.sum_range_succ']
          simp only [List.take_succ_cons, List.map_cons, List.sum_cons,
            List.getD_cons_succ, List.getD_cons_zero, ih c hc]
          ring

theorem take_sum_le (l : List ℕ) (cc : ℕ) :
    (l.take cc).sum ≤ l.sum := by
  conv_rhs => rw [← List.take_append_drop cc l]
  rw [List.sum_append]
  exact Nat.le_add_right _ _

theorem take_cast_sum_nat (l : List ℕ) (cc : ℕ) (h : cc ≤ l.length) :
    ((l.take cc).map (fun x : ℕ => (x : ℚ))).sum = ((l.take cc).sum : ℚ) := by
  induction l generalizing cc with
  | nil => simp
  | cons x xs ih =>
      cases cc with
      | zero => simp
      | succ c =>
          have hc : c ≤ xs.length := by simpa using h
          simp [ih c hc]

theorem getD_range_map {α : Type} (g : ℕ → α) (n i : ℕ) (h : i < n) (d : α) :
    ((List.range n).map g).getD i d = g i := by
  rw [List.getD_eq_getElem?_getD]
  simp [List.getElem?_map, List.getElem?_range, h]

theorem NGramWeights.get_row_and_sum_ok (N V : ℕ) (t : NGramWeights)
    (l : List ℕ) (h : ¬ l.length < N) :
    NGramWeights.get_row_and_sum N V t l =
      .ok (t.weights (NGramWeights.row_index_val N V l),
        t.sum (NGramWeights.row_index_val N V l)) := by
  simp [NGramWeights.get_row_and_sum, NGramWeights.get_row_index, h]

theorem getD_map_fin (qs : List ℚ) (i : ℕ) (h : i < qs.length) :
    (qs.map FP.fin).getD i .nan = .fin (qs.getD i 0) := by
  rw [List.getD_eq_getElem?_getD, List.getD_eq_getElem?_getD,
    List.getElem?_map]
  rw [List.getElem?_eq_getElem h]
  rfl

theorem char_type_combined_probs_ok (N : ℕ) (exp : NameExperiments)
    (cseq : List ValidChar) (tseq : List CharType) (posE negE : ℚ)
    (hc : ¬ cseq.length < N) (ht : ¬ tseq.length < N) :
    char_type_combined_probs N exp cseq tseq posE negE =
      .ok ((List.range 29).map (fun i =>
        FP.mul
          (combined_char_prob
            (exp.positive_char_samples.weights
              (NGramWeights.row_index_val N 29 (cseq.map ValidChar.toUsize)))
            (exp.negative_char_samples.weights
              (NGramWeights.row_index_val N 29 (cseq.map ValidChar.toUsize)))
            (exp.positive_char_samples.sum
              (NGramWeights.row_index_val N 29 (cseq.map ValidChar.toUsize)))
            (exp.negative_char_samples.sum
              (NGramWeights.row_index_val N 29 (cseq.map ValidChar.toUsize)))
            posE negE i)
          (combined_type_prob
            (exp.positive_char_type_samples.weights
              (NGramWeights.row_index_val N 10 (tseq.map CharType.toUsize)))
            (exp.negative_char_type_samples.weights
              (NGramWeights.row_index_val N 10 (tseq.map CharType.toUsize)))
            (exp.positive_char_type_samples.sum
              (NGramWeights.row_index_val N 10 (tseq.map CharType.toUsize)))
            (exp.negative_char_type_samples.sum
              (NGramWeights.row_index_val N 10 (tseq.map CharType.toUsize)))
            posE negE
            (CharType.tryFromWindow
              { diag_window cseq with
                s3 := ValidChar.ALLCHARS.getD i .null }).toUsize)),
        { diag_window cseq with s3 := ValidChar.ALLCHARS.getD 28 .null }) := by
  have hc2 : ¬ (cseq.map ValidChar.toUsize).length < N := by simpa using hc
  have ht2 : ¬ (tseq.map CharType.toUsize).length < N := by simpa using ht
  simp only [char_type_combined_probs,
    NGramWeights.get_row_and_sum_ok _ _ _ _ hc2,
    NGramWeights.get_row_and_sum_ok _ _ _ _ ht2]

theorem apply_length_stats_fin (hist : List ℕ) (total cc : ℕ)
    (qs : List ℚ) (e : ℚ) (hcc : ¬ hist.length < cc) (htot : total ≠ 0)
    (he : e = (∑ k ∈ Finset.range cc, (hist.getD k 0 : ℚ)) / total) :
    apply_length_stats (hist, total) cc (qs.map FP.fin) =
      .ok ((List.range qs.length).map (fun i =>
        FP.fin (qs.getD i 0 *
          (if i + 1 = qs.length then e else (1 - e) / 29)))) := by
  have hccle : cc ≤ hist.length := Nat.le_of_not_lt hcc
  have htotq : (total : ℚ) ≠ 0 := Nat.cast_ne_zero.mpr htot
  have hend : FP.listSum ((hist.take cc).map
      (fun x : ℕ => FP.div (.fin x) (.fin total))) = .fin e := by
    have h1 : (hist.take cc).map (fun x : ℕ => FP.div (.fin x) (.fin total)) =
        ((hist.take cc).map (fun x : ℕ => (x : ℚ) / total)).map FP.fin := by
      rw [List.map_map]
      exact List.map_congr_left fun x _ => FP.div_fin_fin htotq
    have h2 : (hist.take cc).map (fun x : ℕ => (x : ℚ) / total) =
        ((hist.take cc).map (fun x : ℕ => (x : ℚ))).map
          (fun q : ℚ => q / total) :=
      (List.map_map (fun q : ℚ => q / (total : ℚ))
        (fun x : ℕ => (x : ℚ)) (hist.take cc)).symm
    rw [h1, FP.listSum_map_fin, h2, list_sum_map_div,
      take_map_cast_sum hist cc hccle, he]
  simp only [apply_length_stats, hcc, if_false]
  rw [hend]
  simp only [List.length_map]
  congr 1
  refine List.map_congr_left fun i hi => ?_
  have hi29 : i < qs.length := List.mem_range.mp hi
  rw [getD_map_fin qs i hi29]
  have hdiv : FP.div (FP.sub (.fin 1) (.fin e)) (.fin 29) =
      .fin ((1 - e) / 29) := by
    show FP.div (.fin (1 - e)) (.fin 29) = .fin ((1 - e) / 29)
    exact FP.div_fin_fin (by norm_num)
  by_cases hlast : i + 1 = qs.length
  · rw [if_pos hlast, if_pos hlast]
    rfl
  · rw [if_neg hlast, if_neg hlast, hdiv]
    rfl

theorem generate_eq_of_ctp (N : ℕ) (exp : NameExperiments)
    (cseq : List ValidChar) (tseq : List CharType) (cc : ℕ)
    (pe ne2 : Option ℚ) (sq : Option Bool) (qs : List ℚ) (w : Window4)
    (e : ℚ) (g : ℕ → ℚ)
    (hctp : char_type_combined_probs N exp cseq tseq (pe.getD 1)
      (ne2.getD 1) = .ok (qs.map FP.fin, w))
    (hcc : ¬ exp.name_sizes.1.length < cc)
    (htot : exp.name_sizes.2 ≠ 0)
    (he : e = (∑ k ∈ Finset.range cc, (exp.name_sizes.1.getD k 0 : ℚ)) /
      (exp.name_sizes.2 : ℚ))
    (hg : g = fun i => (if sq.getD true then (fun x : ℚ => x * x) else id)
      (qs.getD i 0 * (if i + 1 = qs.length then e else (1 - e) / 29))) :
    exp.generate_probability_distribution N cseq tseq cc pe ne2 sq =
      .ok (((List.range qs.length).map g).map FP.fin,
        .fin (((List.range qs.length).map g).sum), w) := by
  have hals := apply_length_stats_fin exp.name_sizes.1 exp.name_sizes.2 cc
    qs e hcc htot he
  simp only [NameExperiments.generate_probability_distribution, hctp]
  have hns : exp.name_sizes = (exp.name_sizes.1, exp.name_sizes.2) := rfl
  rw [hns, hals]
  have hsq : (if sq.getD true then
      ((List.range qs.length).map (fun i =>
        FP.fin (qs.getD i 0 *
          (if i + 1 = qs.length then e else (1 - e) / 29)))).map
        (fun p => FP.mul p p)
      else (List.range qs.length).map (fun i =>
        FP.fin (qs.getD i 0 *
          (if i + 1 = qs.length then e else (1 - e) / 29)))) =
      ((List.range qs.length).map g).map FP.fin := by
    subst hg
    by_cases hb : sq.getD true
    · simp only [hb, if_true, List.map_map]
      exact List.map_congr_left fun i _ => by simp [FP.mul]
    · simp only [hb, if_false, List.map_map]
      exact List.map_congr_left fun i _ => by simp
  simp only [hsq, FP.listSum_map_fin, FP.isNan, Bool.false_eq_true,
    if_false]

theorem rustUsizeSub_eq (a b : ℕ) (hb : b ≤ a) (ha : a < 2 ^ 64) :
    rustUsizeSub a b = a - b := by
  unfold rustUsizeSub
  omega

theorem combined_char_prob_default_pos (pr nr : ℕ → ℕ) (ps ns i : ℕ) :
    ∃ q : ℚ, combined_char_prob pr nr ps ns 1 1 i = .fin q ∧ 0 < q := by
  have hden1 : ((ps : ℚ) + 29) ≠ 0 := by positivity
  have hnum1 : (0 : ℚ) < (pr i : ℚ) + 1 := by positivity
  by_cases hns : ns = 0
  · refine ⟨((pr i : ℚ) + 1) / ((ps : ℚ) + 29), ?_, ?_⟩
    · simp [combined_char_prob, hns, one_mul, FP.div_fin_fin hden1]
    · apply div_pos hnum1
      positivity
  · have hden2 : ((ns : ℚ) + 29) ≠ 0 := by positivity
    refine ⟨(((pr i : ℚ) + 1) / ((ps : ℚ) + 29)) *
      (((rustUsizeSub ns (nr i) : ℚ) + 1) / ((ns : ℚ) + 29)), ?_, ?_⟩
    · simp [combined_char_prob, hns, one_mul, FP.div_fin_fin hden1,
        FP.div_fin_fin hden2, FP.mul]
    · apply mul_pos
      · apply div_pos hnum1
        positivity
      · apply div_pos
        · positivity
        · positivity

theorem combined_type_prob_default_pos (pr nr : ℕ → ℕ) (ps ns i : ℕ) :
    ∃ q : ℚ, combined_type_prob pr nr ps ns 1 1 i = .fin q ∧ 0 < q := by
  have hden1 : ((ps : ℚ) + 10) ≠ 0 := by positivity
  have hden2 : ((ns : ℚ) + 10) ≠ 0 := by positivity
  refine ⟨(((pr i : ℚ) + 1) / ((ps : ℚ) + 10)) *
    (((rustUsizeSub ns (nr i) : ℚ) + 1) / ((ns : ℚ) + 10)), ?_, ?_⟩
  · simp [combined_type_prob, one_mul, FP.div_fin_fin hden1,
      FP.div_fin_fin hden2, FP.mul]
  · apply mul_pos
    · apply div_pos
      · positivity
      · positivity
    · apply div_pos
      · positivity
      · positivity

theorem list_sum_set_succ (l : List ℕ) (n : ℕ) (h : n < l.length) :
    (l.set n (l.getD n 0 + 1)).sum = l.sum + 1 := by
  induction l generalizing n with
  | nil => simp at h
  | cons x xs ih =>
      cases n with
      | zero =>
          simp only [List.set, List.getD_cons_zero, List.sum_cons]
          omega
      | succ m =>
          have hm : m < xs.length := by simpa using h
          simp only [List.set, List.getD_cons_succ, List.sum_cons, ih m hm]
          omega

theorem add_to_sizes_spec (ns : List ℕ × ℕ) (len : ℕ) :
    (NameExperiments.add_to_sizes_distribution ns len).1.sum = ns.1.sum + 1 ∧
    (NameExperiments.add_to_sizes_distribution ns len).2 = ns.2 + 1 := by
  unfold NameExperiments.add_to_sizes_distribution
  by_cases hlen : len + 1 ≤ ns.1.length
  · simp only [hlen, if_true]
    exact ⟨list_sum_set_succ _ _ (by omega), trivial⟩
  · simp only [hlen, if_false]
    refine ⟨?_, trivial⟩
    have hl : len < (ns.1 ++ List.replicate (len + 1 - ns.1.length) 0).length := by
      simp only [List.length_append, List.length_replicate]
      omega
    rw [list_sum_set_succ _ _ hl]
    simp

theorem reachable_hist_sum (N : ℕ) (exp : NameExperiments)
    (h : NameExperiments.Reachable N exp) :
    exp.name_sizes.1.sum = exp.name_sizes.2 := by
  induction h with
  | base => rfl
  | step exp0 exp2 text tt hr heq ih =>
      unfold NameExperiments.read_sample at heq
      cases hscan : scan_chars text with
      | panicked => rw [hscan] at heq; exact absurd heq (by simp)
      | err e => rw [hscan] at heq; exact absurd heq (by simp)
      | ok valid_chars =>
          rw [hscan] at heq
          have hspec := add_to_sizes_spec exp0.name_sizes valid_chars.length
          cases tt with
          | Pos =>
              simp only [RResult.ok.injEq] at heq
              rw [← heq]
              simp only
              rw [hspec.1, hspec.2, ih]
          | Neg =>
              simp only [RResult.ok.injEq] at heq
              rw [← heq]
              simp only
              rw [hspec.1, hspec.2, ih]

theorem foldl_add_nan (l : List FP) : l.foldl FP.add FP.nan = FP.nan := by
  induction l with
  | nil => rfl
  | cons x xs ih =>
      show xs.foldl FP.add (FP.add .nan x) = _
      have hx : FP.add .nan x = .nan := by cases x <;> rfl
      rw [hx]
      exact ih

theorem listSum_replicate_nan (n : ℕ) (h : 0 < n) :
    FP.listSum (List.replicate n FP.nan) = FP.nan := by
  cases n with
  | zero => omega
  | succ m =>
      rw [List.replicate_succ]
      show (List.replicate m FP.nan).foldl FP.add (FP.add (.fin 0) .nan) = _
      have hz : FP.add (.fin 0) .nan = .nan := rfl
      rw [hz]
      exact foldl_add_nan _

theorem add_to_weights_components (N V : ℕ) (t : NGramWeights)
    (seq : List ℕ) (next : ℕ)
    (hfin : t.finalized = false) (hlen : ¬ seq.length < N)
    (hcnt : ¬ 255 ≤ t.weights (NGramWeights.row_index_val N V seq) next)
    (hsum : ¬ 2 ^ 64 - 1 ≤ t.sum (NGramWeights.row_index_val N V seq)) :
    (NGramWeights.add_to_weights N V t seq next).2.finalized = false ∧
    (∀ r c, (NGramWeights.add_to_weights N V t seq next).2.weights r c =
      if r = NGramWeights.row_index_val N V seq ∧ c = next then
        t.weights (NGramWeights.row_index_val N V seq) next + 1
      else t.weights r c) ∧
    (∀ r, (NGramWeights.add_to_weights N V t seq next).2.sum r =
      if r = NGramWeights.row_index_val N V seq then
        t.sum (NGramWeights.row_index_val N V seq) + 1
      else t.sum r) := by
  unfold NGramWeights.add_to_weights
  rw [hfin]
  simp only [Bool.false_eq_true, if_false, hlen, hcnt, hsum]
  exact ⟨trivial, fun r c => trivial, fun r => trivial⟩

theorem addK_spec (N V : ℕ) (seq : List ℕ) (next : ℕ)
    (hlen : ¬ seq.length < N) (k : ℕ) (hk : k ≤ 255) :
    (addK N V NGramWeights.new seq next k).finalized = false ∧
    (∀ r c, (addK N V NGramWeights.new seq next k).weights r c =
      if r = NGramWeights.row_index_val N V seq ∧ c = next then k else 0) ∧
    (∀ r, (addK N V NGramWeights.new seq next k).sum r =
      if r = NGramWeights.row_index_val N V seq then k else 0) := by
  induction k with
  | zero =>
      refine ⟨rfl, fun r c => ?_, fun r => ?_⟩ <;> simp [addK, NGramWeights.new]
  | succ k ih =>
      obtain ⟨hfin, hw, hs⟩ := ih (Nat.le_of_succ_le hk)
      have hknot : ¬ (255 ≤ (addK N V NGramWeights.new seq next k).weights
          (NGramWeights.row_index_val N V seq) next) := by
        rw [hw, if_pos ⟨rfl, rfl⟩]
        omega
      have hsnot : ¬ (2 ^ 64 - 1 ≤ (addK N V NGramWeights.new seq next k).sum
          (NGramWeights.row_index_val N V seq)) := by
        rw [hs, if_pos rfl]
        omega
      obtain ⟨hf2, hw2, hs2⟩ := add_to_weights_components N V
        (addK N V NGramWeights.new seq next k) seq next hfin hlen hknot hsnot
      refine ⟨hf2, fun r c => ?_, fun r => ?_⟩
      · rw [show addK N V NGramWeights.new seq next (k + 1) =
          (NGramWeights.add_to_weights N V
            (addK N V NGramWeights.new seq next k) seq next).2 from rfl]
        rw [hw2 r c, hw r c, hw (NGramWeights.row_index_val N V seq) next]
        by_cases hrc : r = NGramWeights.row_index_val N V seq ∧ c = next
        · simp [hrc]
        · simp [hrc]
      · rw [show addK N V NGramWeights.new seq next (k + 1) =
          (NGramWeights.add_to_weights N V
            (addK N V NGramWeights.new seq next k) seq next).2 from rfl]
        rw [hs2 r, hs r, hs (NGramWeights.row_index_val N V seq)]
        by_cases hr : r = NGramWeights.row_index_val N V seq
        · simp [hr]
        · simp [hr]

/-- Claim C8: starting from a freshly constructed table, after `k`
successful `add_to_weights` calls with the same `(context, next)` pair
(`k ≤ 255`, so no counter saturates), `get_row_and_sum(context)`
succeeds and returns a row whose counter for `next` equals `k` and a
stored row sum equal to `k`. -/
theorem c8_observe_roundtrip (N V : ℕ) (seq : List ℕ) (next : ℕ) (k : ℕ)
    (hlen : N ≤ seq.length) (hk : k ≤ 255) :
    exceptIsOk (NGramWeights.get_row_and_sum N V
      (addK N V NGramWeights.new seq next k) seq) = true ∧
    exceptRowCount (NGramWeights.get_row_and_sum N V
      (addK N V NGramWeights.new seq next k) seq) next = k ∧
    exceptRowSum (NGramWeights.get_row_and_sum N V
      (addK N V NGramWeights.new seq next k) seq) = k := by
  have hlen2 : ¬ seq.length < N := Nat.not_lt.mpr hlen
  obtain ⟨hfin, hw, hs⟩ := addK_spec N V seq next hlen2 k hk
  rw [NGramWeights.get_row_and_sum_ok _ _ _ _ hlen2]
  refine ⟨rfl, ?_, ?_⟩
  · simp [exceptRowCount, hw]
  · simp [exceptRowSum, hs]

/-- Claim C8, witness: two observations of context `[0, 1]` followed by
symbol 3 in a fresh 2-gram table over 29 symbols give counter 2 and row
sum 2. -/
theorem c8_observe_roundtrip_witness :
    exceptRowCount (NGramWeights.get_row_and_sum 2 29
      (addK 2 29 NGramWeights.new [0, 1] 3 2) [0, 1]) 3 = 2 ∧
    exceptRowSum (NGramWeights.get_row_and_sum 2 29
      (addK 2 29 NGramWeights.new [0, 1] 3 2) [0, 1]) = 2 := by
  have h := c8_observe_roundtrip 2 29 [0, 1] 3 2 (by norm_num) (by norm_num)
  exact ⟨h.2.1, h.2.2⟩

theorem sum_pow_shift (V : ℕ) (d : ℕ → ℕ) (n : ℕ) :
    ∑ j ∈ Finset.range (n + 1), V ^ j * d j =
      d 0 + V * ∑ j ∈ Finset.range n, V ^ j * d (j + 1) := by
  rw [Finset.sum_range_succ']
  have hc : ∀ j ∈ Finset.range n,
      V ^ (j + 1) * d (j + 1) = V * (V ^ j * d (j + 1)) := by
    intro j _
    rw [pow_succ]
    ring
  rw [Finset.sum_congr rfl hc, ← Finset.mul_sum]
  simp [add_comm]

theorem digit_extract (V : ℕ) (hV : 0 < V) :
    ∀ (i N : ℕ) (d : ℕ → ℕ), i < N → (∀ j, j < N → d j < V) →
      (∑ j ∈ Finset.range N, V ^ j * d j) / V ^ i % V = d i := by
  intro i
  induction i with
  | zero =>
      intro N d hiN hd
      obtain ⟨m, rfl⟩ : ∃ m, N = m + 1 := ⟨N - 1, by omega⟩
      rw [sum_pow_shift]
      simp only [pow_zero, Nat.div_one]
      rw [Nat.add_mul_mod_self_left]
      exact Nat.mod_eq_of_lt (hd 0 (by omega))
  | succ i ih =>
      intro N d hiN hd
      obtain ⟨m, rfl⟩ : ∃ m, N = m + 1 := ⟨N - 1, by omega⟩
      rw [sum_pow_shift]
      have h1 : (d 0 + V * ∑ j ∈ Finset.range m, V ^ j * d (j + 1)) /
          V ^ (i + 1) = (∑ j ∈ Finset.range m, V ^ j * d (j + 1)) / V ^ i := by
        rw [pow_succ', ← Nat.div_div_eq_div_mul]
        congr 1
        rw [Nat.add_mul_div_left _ _ hV,
          Nat.div_eq_of_lt (hd 0 (by omega))]
        omega
      rw [h1]
      exact ih m (fun j => d (j + 1)) (by omega) fun j hj => hd (j + 1) (by omega)

/-- Claim C3 (amended): for a well-formed context (all symbol codes
below V), `get_row_index` succeeds and returns the base-V positional
encoding in which window slot `i` contributes the digit of weight
`V^i` — so the most recent symbol, stored at the END of the rolling
window (slot N-1), contributes the HIGHEST-order digit `V^(N-1)`, and
the oldest symbol contributes the lowest-order digit. -/
theorem c3_row_index_encoding_amended (N V : ℕ) (char_seq : List ℕ)
    (hlen : N ≤ char_seq.length)
    (hdig : ∀ j, j < N → char_seq.getD j 0 < V) :
    NGramWeights.get_row_index N V char_seq =
      .ok (NGramWeights.row_index_val N V char_seq) ∧
    ∀ i, i < N →
      NGramWeights.row_index_val N V char_seq / V ^ i % V =
        char_seq.getD i 0 := by
  constructor
  · simp [NGramWeights.get_row_index, Nat.not_lt.mpr hlen]
  · intro i hi
    have hV : 0 < V := Nat.pos_of_ne_zero (by
      intro h0
      have := hdig i hi
      omega)
    exact digit_extract V hV i N (fun j => char_seq.getD j 0) hi hdig

/-- Claim C3, witness: for the context `[3, 5]` with `V = 29` (most
recent symbol 5 in the last slot), the index is `3 + 5·29 = 148`; the
digit of weight `29^1` is the most recent symbol 5 and the digit of
weight `29^0` is the oldest symbol 3. -/
theorem c3_row_index_encoding_witness :
    NGramWeights.row_index_val 2 29 [3, 5] / 29 ^ 1 % 29 = 5 ∧
    NGramWeights.row_index_val 2 29 [3, 5] / 29 ^ 0 % 29 = 3 := by
  have h := c3_row_index_encoding_amended 2 29 [3, 5] (by norm_num) (by decide)
  exact ⟨h.2 1 (by norm_num), h.2 0 (by norm_num)⟩

theorem char_le_iff_toNat (c d : Char) : c ≤ d ↔ c.toNat ≤ d.toNat := by
  rw [Char.le_def, UInt32.le_def]
  rfl

theorem validCharOfIdent_isOk (n : ℕ) :
    exceptIsOk (validCharOfIdent n) = true ↔ n ≤ 25 := by
  constructor
  · intro h
    by_contra hn
    obtain ⟨m, rfl⟩ : ∃ m, n = m + 26 := ⟨n - 26, by omega⟩
    have herr : validCharOfIdent (m + 26) =
        .error "is an invalid character" := by
      unfold validCharOfIdent
      repeat rw [if_neg (by omega)]
    rw [herr] at h
    exact absurd h (by simp [exceptIsOk])
  · intro h
    interval_cases n <;> rfl

/-- Claim C7 (amended): encoding succeeds exactly for characters whose
Unicode-lowercased first character is dash, apostrophe, the NUL
terminator, or a lowercase letter `a`-`z` — a set that contains some
characters outside the 52 ASCII letters (e.g. the Kelvin sign) — and,
with release-profile wrapping arithmetic, the encoder is a total
function: every other character yields the `InvalidSymbol`-style error
rather than a panic. -/
theorem c7_encode_invalid_amended :
    ∀ c : Char,
      exceptIsOk (ValidChar.tryFromChar c) = true ↔
        (rustLowerFirst c = '-' ∨ rustLowerFirst c = '\'' ∨
         rustLowerFirst c = Char.ofNat 0 ∨
         ('a' ≤ rustLowerFirst c ∧ rustLowerFirst c ≤ 'z')) := by
  intro c
  unfold ValidChar.tryFromChar
  by_cases h1 : rustLowerFirst c = '-'
  · simp [h1, exceptIsOk]
  by_cases h2 : rustLowerFirst c = '\''
  · simp [h1, h2, exceptIsOk]
  by_cases h3 : rustLowerFirst c = Char.ofNat 0
  · simp [h1, h2, h3, exceptIsOk]
  simp only [h1, h2, h3, if_false, false_or]
  rw [validCharOfIdent_isOk, char_le_iff_toNat, char_le_iff_toNat]
  have hlt : (rustLowerFirst c).toNat < 2 ^ 32 := (rustLowerFirst c).val.toNat_lt
  have ha : ('a').toNat = 97 := rfl
  have hz : ('z').toNat = 122 := rfl
  rw [ha, hz]
  omega

/-- Claim C2, counterexample: ingesting the single-character sample
"a" records category Null for position 0 — the training window holds
the symbol at position p-1 (here: nothing but null padding), not the
symbol at position p — whereas the claimed window, whose most recent
element is the sample's symbol at position 0, classifies as VowelRoot.
The category table row for the all-Null context (row 99) has count 1
for Null and 0 for VowelRoot. -/
theorem c2_training_window_counterexample :
    sample_char_types [ValidChar.a] = [CharType.Null] ∧
    expA.positive_char_type_samples.weights 99 CharType.Null.toUsize = 1 ∧
    expA.positive_char_type_samples.weights 99 CharType.VowelRoot.toUsize = 0 ∧
    NGramWeights.get_row_index 2 10
      ([CharType.Null, CharType.Null].map CharType.toUsize) = .ok 99 ∧
    CharType.tryFromWindow (claim_char_window [ValidChar.a] 0) =
      CharType.VowelRoot ∧
    CharType.Null ≠ CharType.VowelRoot := by
  decide

/-- Claim C2 (amended): the phonetic category recorded for position
`p` of an ingested sample is the classifier applied to the 4-symbol
window whose most recent element is the sample's symbol at position
`p - 1` (one position of lag), null-padded past the start; at position
0 the window is all null padding and the recorded category is Null. -/
theorem c2_training_window_lag_amended :
    ∀ (vcs : List ValidChar) (p : ℕ), p < vcs.length →
      (1 ≤ p → (sample_char_types vcs).getD p .Null =
        CharType.tryFromWindow (claim_char_window vcs (p - 1))) ∧
      (p = 0 → (sample_char_types vcs).getD p .Null = CharType.Null) := by
  intro vcs p hp
  have hentry : (sample_char_types vcs).getD p .Null =
      CharType.tryFromWindow (train_char_window vcs p) := by
    unfold sample_char_types
    exact getD_range_map _ _ _ hp _
  constructor
  · intro h1
    rw [hentry]
    have hwin : train_char_window vcs p = claim_char_window vcs (p - 1) := by
      unfold train_char_window claim_char_window
      simp only [Window4.mk.injEq]
      refine ⟨?_, ?_, ?_, ?_⟩
      · by_cases h4 : 4 ≤ p
        · rw [if_pos h4, if_pos (show 3 ≤ p - 1 by omega)]
          congr 1
        · rw [if_neg h4, if_neg (show ¬ 3 ≤ p - 1 by omega)]
      · by_cases h3 : 3 ≤ p
        · rw [if_pos h3, if_pos (show 2 ≤ p - 1 by omega)]
          congr 1
        · rw [if_neg h3, if_neg (show ¬ 2 ≤ p - 1 by omega)]
      · by_cases h2 : 2 ≤ p
        · rw [if_pos h2, if_pos (show 1 ≤ p - 1 by omega)]
          congr 1
        · rw [if_neg h2, if_neg (show ¬ 1 ≤ p - 1 by omega)]
      · rw [if_pos h1]
    rw [hwin]
  · intro h0
    subst h0
    rw [hentry]
    rfl

/-- Claim C2, witness: for the sample "an", the category recorded at
position 1 is the classifier of the claimed window for position 0; for
the sample "a", position 0 records Null. -/
theorem c2_training_window_lag_witness :
    (sample_char_types [ValidChar.a, ValidChar.n]).getD 1 .Null =
      CharType.tryFromWindow
        (claim_char_window [ValidChar.a, ValidChar.n] 0) ∧
    (sample_char_types [ValidChar.a]).getD 0 .Null = CharType.Null := by
  exact ⟨(c2_training_window_lag_amended [ValidChar.a, ValidChar.n] 1
      (by norm_num)).1 (by norm_num),
    (c2_training_window_lag_amended [ValidChar.a] 0 (by norm_num)).2 rfl⟩

/-- Claim C4 (amended): when the relevant negative row sum is zero the
negative-evidence factor is omitted only at the symbol level; at the
category level the factor is always applied, and with zero negative
evidence and default easing it equals `1/10`, so the category
probability is the positive term times `1/10`, not the positive term
alone. -/
theorem c4_negative_factor_amended :
    (∀ (pr nr : ℕ → ℕ) (ps : ℕ) (negE : ℚ) (i : ℕ),
      combined_char_prob pr nr ps 0 1 negE i =
        .fin (((pr i : ℚ) + 1) / ((ps : ℚ) + 29))) ∧
    (∀ (pr nr : ℕ → ℕ) (ps i : ℕ), nr i = 0 →
      combined_type_prob pr nr ps 0 1 1 i =
        .fin ((((pr i : ℚ) + 1) / ((ps : ℚ) + 10)) * (1 / 10))) := by
  constructor
  · intro pr nr ps negE i
    have hden : ((ps : ℚ) + 29) ≠ 0 := by positivity
    simp [combined_char_prob, one_mul, FP.div_fin_fin hden]
  · intro pr nr ps i hnr
    have hden1 : ((ps : ℚ) + 10) ≠ 0 := by positivity
    have hsub : rustUsizeSub 0 (nr i) = 0 := by
      rw [hnr]
      rfl
    norm_num [combined_type_prob, hsub, FP.div_fin_fin hden1,
      FP.div_fin_fin (show (10 : ℚ) ≠ 0 by norm_num), FP.mul]

/-- Claim C4, witness: concrete rows with zero negative sums at both
levels. -/
theorem c4_negative_factor_witness :
    combined_char_prob (fun _ => 5) (fun _ => 7) 9 0 1 1 3 =
      .fin (((5 : ℚ) + 1) / ((9 : ℚ) + 29)) ∧
    combined_type_prob (fun _ => 5) (fun _ => 0) 9 0 1 1 3 =
      .fin ((((5 : ℚ) + 1) / ((9 : ℚ) + 10)) * (1 / 10)) := by
  constructor
  · have h := c4_negative_factor_amended.1 (fun _ => 5) (fun _ => 7) 9 1 3
    rw [h]
    norm_num
  · have h := c4_negative_factor_amended.2 (fun _ => 5) (fun _ => 0) 9 3 rfl
    rw [h]
    norm_num

theorem getD_map_d {α β : Type} (f : α → β) (l : List α) (i : ℕ)
    (h : i < l.length) (d : β) (d2 : α) :
    (l.map f).getD i d = f (l.getD i d2) := by
  rw [List.getD_eq_getElem?_getD, List.getElem?_map,
    List.getElem?_eq_getElem h, List.getD_eq_getElem?_getD,
    List.getElem?_eq_getElem h]
  rfl

theorem FP.mul_nan (p : FP) : FP.mul p .nan = .nan := by
  cases p <;> rfl

theorem mul_ccp_ctp_pos (pr nr : ℕ → ℕ) (ps ns : ℕ) (pr2 nr2 : ℕ → ℕ)
    (ps2 ns2 : ℕ) (i t : ℕ) :
    ∃ q : ℚ, FP.mul (combined_char_prob pr nr ps ns 1 1 i)
      (combined_type_prob pr2 nr2 ps2 ns2 1 1 t) = .fin q ∧ 0 < q := by
  obtain ⟨qa, ha, hqa⟩ := combined_char_prob_default_pos pr nr ps ns i
  obtain ⟨qb, hb, hqb⟩ := combined_type_prob_default_pos pr2 nr2 ps2 ns2 t
  refine ⟨qa * qb, ?_, mul_pos hqa hqb⟩
  rw [ha, hb]
  rfl

theorem generate_entry_from_ctp (N : ℕ) (exp : NameExperiments)
    (cseq : List ValidChar) (tseq : List CharType) (cc : ℕ)
    (pe ne2 : Option ℚ) (qs : List ℚ) (w : Window4) (e : ℚ)
    (hctp : char_type_combined_probs N exp cseq tseq (pe.getD 1)
      (ne2.getD 1) = .ok (qs.map FP.fin, w))
    (hcc : ¬ exp.name_sizes.1.length < cc)
    (htot : exp.name_sizes.2 ≠ 0)
    (he : e = (∑ k ∈ Finset.range cc, (exp.name_sizes.1.getD k 0 : ℚ)) /
      (exp.name_sizes.2 : ℚ))
    (i : ℕ) (hi : i < qs.length) :
    distEntry (exp.generate_probability_distribution N cseq tseq cc pe ne2
      (some false)) i =
      .fin (qs.getD i 0 * (if i + 1 = qs.length then e else (1 - e) / 29)) := by
  rw [generate_eq_of_ctp N exp cseq tseq cc pe ne2 (some false) qs w e
    (fun j => (if (some false).getD true then (fun x : ℚ => x * x) else id)
      (qs.getD j 0 * (if j + 1 = qs.length then e else (1 - e) / 29)))
    hctp hcc htot he rfl]
  simp only [distEntry]
  have hlen : i < ((List.range qs.length).map
      (fun j => (if (some false).getD true then (fun x : ℚ => x * x) else id)
        (qs.getD j 0 *
          (if j + 1 = qs.length then e else (1 - e) / 29)))).length := by
    simpa using hi
  rw [getD_map_fin _ i (by simpa using hi)]
  rw [getD_range_map _ _ _ hi]
  simp

theorem range_getD_sum_cast (l : List ℕ) (cc : ℕ) (h : cc ≤ l.length) :
    (∑ k ∈ Finset.range cc, (l.getD k 0 : ℚ)) = (((l.take cc).sum : ℕ) : ℚ) := by
  rw [← take_map_cast_sum l cc h, take_cast_sum_nat l cc h]

theorem FP.add_nan (p : FP) : FP.add p .nan = .nan := by
  cases p <;> rfl

theorem FP.sub_fin_nan (q : ℚ) : FP.sub (.fin q) .nan = .nan := rfl

theorem FP.nan_div (p : FP) : FP.div .nan p = .nan := by
  cases p <;> rfl

theorem FP.div_zero_zero : FP.div (.fin 0) (.fin 0) = .nan := by
  norm_num [FP.div]

theorem fresh_length_stats_nan (qs : List ℚ) :
    apply_length_stats ([0], 0) 1 (qs.map FP.fin) =
      .ok ((List.range qs.length).map (fun _ => FP.nan)) := by
  unfold apply_length_stats
  norm_num [FP.listSum, FP.div_zero_zero, FP.add_nan, FP.sub_fin_nan,
    FP.nan_div, FP.mul_nan, ite_self, List.map_const']

theorem ctp_all_entries_fin (N : ℕ) (exp : NameExperiments)
    (cseq : List ValidChar) (tseq : List CharType)
    (hc : ¬ cseq.length < N) (ht : ¬ tseq.length < N) :
    ∃ (qs : List ℚ) (w : Window4), qs.length = 29 ∧
      (∀ j, j < 29 → 0 < qs.getD j 0) ∧
      char_type_combined_probs N exp cseq tseq 1 1 = .ok (qs.map FP.fin, w) := by
  have hctp0 := char_type_combined_probs_ok N exp cseq tseq 1 1 hc ht
  set f : ℕ → FP := fun i =>
    FP.mul
      (combined_char_prob
        (exp.positive_char_samples.weights
          (NGramWeights.row_index_val N 29 (cseq.map ValidChar.toUsize)))
        (exp.negative_char_samples.weights
          (NGramWeights.row_index_val N 29 (cseq.map ValidChar.toUsize)))
        (exp.positive_char_samples.sum
          (NGramWeights.row_index_val N 29 (cseq.map ValidChar.toUsize)))
        (exp.negative_char_samples.sum
          (NGramWeights.row_index_val N 29 (cseq.map ValidChar.toUsize)))
        1 1 i)
      (combined_type_prob
        (exp.positive_char_type_samples.weights
          (NGramWeights.row_index_val N 10 (tseq.map CharType.toUsize)))
        (exp.negative_char_type_samples.weights
          (NGramWeights.row_index_val N 10 (tseq.map CharType.toUsize)))
        (exp.positive_char_type_samples.sum
          (NGramWeights.row_index_val N 10 (tseq.map CharType.toUsize)))
        (exp.negative_char_type_samples.sum
          (NGramWeights.row_index_val N 10 (tseq.map CharType.toUsize)))
        1 1
        (CharType.tryFromWindow
          { diag_window cseq with
            s3 := ValidChar.ALLCHARS.getD i .null }).toUsize) with hf
  have hallq : ∀ i, ∃ q : ℚ, f i = .fin q ∧ 0 < q := by
    intro i
    exact mul_ccp_ctp_pos _ _ _ _ _ _ _ _ _ _
  have hall : ∀ p ∈ (List.range 29).map f, ∃ q, p = FP.fin q := by
    intro p hp
    obtain ⟨i, _, rfl⟩ := List.mem_map.mp hp
    obtain ⟨q, hq, _⟩ := hallq i
    exact ⟨q, hq⟩
  refine ⟨((List.range 29).map f).map FP.toQ,
    { diag_window cseq with s3 := ValidChar.ALLCHARS.getD 28 .null },
    by simp, ?_, ?_⟩
  · intro j hj
    rw [getD_map_d FP.toQ _ j (by simpa using hj) 0 FP.nan,
      getD_range_map f 29 j hj]
    obtain ⟨q, hq, hqpos⟩ := hallq j
    rw [hq]
    exact hqpos
  · rw [map_fin_toQ _ hall]
    exact hctp0

theorem c5_part_a (N : ℕ) (cseq : List ValidChar) (tseq : List CharType)
    (hc : ¬ cseq.length < N) (ht : ¬ tseq.length < N) :
    NameExperiments.fresh.generate_probability_distribution N cseq tseq 1
      none none none = .err "Sum of probabilities produced a nan" := by
  obtain ⟨qs, w, hlen29, hpos, hctp⟩ :=
    ctp_all_entries_fin N NameExperiments.fresh cseq tseq hc ht
  simp only [NameExperiments.generate_probability_distribution,
    Option.getD_none]
  rw [hctp]
  show (match apply_length_stats ([0], 0) 1 (qs.map FP.fin) with
    | RResult.panicked => RResult.panicked
    | RResult.err e => RResult.err e
    | RResult.ok probs1 =>
      if (FP.listSum (if True then List.map (fun p => p.mul p) probs1
          else probs1)).isNan = true then
        RResult.err "Sum of probabilities produced a nan"
      else
        RResult.ok
          (if True then List.map (fun p => p.mul p) probs1 else probs1,
            FP.listSum (if True then List.map (fun p => p.mul p) probs1
              else probs1), w)) =
    RResult.err "Sum of probabilities produced a nan"
  rw [fresh_length_stats_nan]
  have hsq : ((List.range qs.length).map (fun _ => FP.nan)).map
      (fun p => FP.mul p p) = (List.range qs.length).map (fun _ => FP.nan) := by
    rw [List.map_map]
    refine List.map_congr_left fun i _ => ?_
    show FP.mul FP.nan FP.nan = FP.nan
    exact FP.mul_nan _
  simp only [Option.getD_none, if_true, hsq]
  rw [List.map_const', List.length_range, hlen29]
  rw [listSum_replicate_nan 29 (by norm_num)]
  rfl

theorem c5_part_b (N : ℕ) (exp : NameExperiments) (cseq : List ValidChar)
    (tseq : List CharType) (cc : ℕ) (sq : Option Bool)
    (hreach : NameExperiments.Reachable N exp)
    (htotpos : 0 < exp.name_sizes.2)
    (hcc : ¬ exp.name_sizes.1.length < cc)
    (hc : ¬ cseq.length < N) (ht : ¬ tseq.length < N) :
    distSumPos (exp.generate_probability_distribution N cseq tseq cc
      none none sq) = true := by
  obtain ⟨qs, w, hlen29, hpos, hctp⟩ :=
    ctp_all_entries_fin N exp cseq tseq hc ht
  have htot : exp.name_sizes.2 ≠ 0 := by omega
  have hsumhist := reachable_hist_sum N exp hreach
  set e : ℚ := (∑ k ∈ Finset.range cc, (exp.name_sizes.1.getD k 0 : ℚ)) /
    (exp.name_sizes.2 : ℚ) with hedef
  set g : ℕ → ℚ := fun i =>
    (if sq.getD true then (fun x : ℚ => x * x) else id)
      (qs.getD i 0 * (if i + 1 = qs.length then e else (1 - e) / 29)) with hgdef
  rw [generate_eq_of_ctp N exp cseq tseq cc none none sq qs w e g hctp hcc
    htot hedef hgdef]
  simp only [distSumPos, decide_eq_true_eq]
  -- bounds on the end probability
  have he0 : 0 ≤ e := by
    rw [hedef]
    apply div_nonneg
    · apply Finset.sum_nonneg
      intro k _
      positivity
    · positivity
  have he1 : e ≤ 1 := by
    rw [hedef, range_getD_sum_cast _ _ (Nat.le_of_not_lt hcc)]
    rw [div_le_one (by exact_mod_cast htotpos)]
    have h1 : (exp.name_sizes.1.take cc).sum ≤ exp.name_sizes.1.sum :=
      take_sum_le _ _
    have h2 : (exp.name_sizes.1.take cc).sum ≤ exp.name_sizes.2 := by omega
    exact_mod_cast h2
  -- every entry of the final list is nonnegative
  have hnonneg : ∀ x ∈ (List.range qs.length).map g, (0 : ℚ) ≤ x := by
    intro x hx
    obtain ⟨i, hi, rfl⟩ := List.mem_map.mp hx
    have hbase : 0 ≤ qs.getD i 0 *
        (if i + 1 = qs.length then e else (1 - e) / 29) := by
      apply mul_nonneg
      · exact le_of_lt (hpos i (by rw [← hlen29]; exact List.mem_range.mp hi))
      · by_cases hl : i + 1 = qs.length
        · rw [if_pos hl]; exact he0
        · rw [if_neg hl]
          have : (0 : ℚ) ≤ 1 - e := by linarith
          positivity
    rw [hgdef]
    by_cases hb : sq.getD true
    · simp only [hb, if_true]
      positivity
    · simp only [hb, if_false, id]
      exact hbase
  -- some entry is strictly positive
  have hmem : ∃ i, i < qs.length ∧ 0 < g i := by
    by_cases hee : e = 1
    · refine ⟨28, by omega, ?_⟩
      have hfac : (if 28 + 1 = qs.length then e else (1 - e) / 29) = 1 := by
        rw [if_pos (by omega), hee]
      have hbase : 0 < qs.getD 28 0 *
          (if 28 + 1 = qs.length then e else (1 - e) / 29) := by
        rw [hfac, mul_one]
        exact hpos 28 (by norm_num)
      rw [hgdef]
      by_cases hb : sq.getD true
      · simp only [hb, if_true]
        positivity
      · simp only [hb, if_false, id]
        exact hbase
    · have helt : e < 1 := lt_of_le_of_ne he1 hee
      refine ⟨0, by omega, ?_⟩
      have hfac : (if 0 + 1 = qs.length then e else (1 - e) / 29) =
          (1 - e) / 29 := by
        rw [if_neg (by omega)]
      have hbase : 0 < qs.getD 0 0 *
          (if 0 + 1 = qs.length then e else (1 - e) / 29) := by
        rw [hfac]
        apply mul_pos (hpos 0 (by norm_num))
        have : (0 : ℚ) < 1 - e := by linarith
        positivity
      rw [hgdef]
      by_cases hb : sq.getD true
      · simp only [hb, if_true]
        positivity
      · simp only [hb, if_false, id]
        exact hbase
  obtain ⟨i0, hi0, hgi0⟩ := hmem
  have hmm : g i0 ∈ (List.range qs.length).map g :=
    List.mem_map.mpr ⟨i0, List.mem_range.mpr hi0, rfl⟩
  have := List.single_le_sum hnonneg _ hmm
  linarith

theorem length_stats_cc_zero (ns : List ℕ × ℕ) (qs : List ℚ) :
    apply_length_stats ns 0 (qs.map FP.fin) =
      .ok ((List.range qs.length).map (fun i =>
        FP.fin (qs.getD i 0 * (if i + 1 = qs.length then 0 else 1 / 29)))) := by
  unfold apply_length_stats
  simp only [Nat.not_lt_zero, if_false, List.take_zero, List.map_nil,
    List.length_map]
  have hend : FP.listSum [] = FP.fin 0 := rfl
  rw [hend]
  congr 1
  refine List.map_congr_left fun i hi => ?_
  have hi2 : i < qs.length := List.mem_range.mp hi
  rw [getD_map_fin qs i hi2]
  have hdiv : FP.div (FP.sub (.fin 1) (.fin 0)) (.fin 29) = .fin (1 / 29) := by
    show FP.div (.fin (1 - 0)) (.fin 29) = .fin (1 / 29)
    rw [FP.div_fin_fin (by norm_num : (29 : ℚ) ≠ 0)]
    norm_num
  by_cases hlast : i + 1 = qs.length
  · rw [if_pos hlast, if_pos hlast]
    rfl
  · rw [if_neg hlast, if_neg hlast, hdiv]
    rfl

theorem generate_eq_of_ctp_zero (N : ℕ) (exp : NameExperiments)
    (cseq : List ValidChar) (tseq : List CharType)
    (pe ne2 : Option ℚ) (sq : Option Bool) (qs : List ℚ) (w : Window4)
    (g : ℕ → ℚ)
    (hctp : char_type_combined_probs N exp cseq tseq (pe.getD 1)
      (ne2.getD 1) = .ok (qs.map FP.fin, w))
    (hg : g = fun i => (if sq.getD true then (fun x : ℚ => x * x) else id)
      (qs.getD i 0 * (if i + 1 = qs.length then 0 else 1 / 29))) :
    exp.generate_probability_distribution N cseq tseq 0 pe ne2 sq =
      .ok (((List.range qs.length).map g).map FP.fin,
        .fin (((List.range qs.length).map g).sum), w) := by
  have hals := length_stats_cc_zero exp.name_sizes qs
  simp only [NameExperiments.generate_probability_distribution, hctp]
  have hns : exp.name_sizes = (exp.name_sizes.1, exp.name_sizes.2) := rfl
  rw [hns] at hals ⊢
  rw [hals]
  have hsq : (if sq.getD true then
      ((List.range qs.length).map (fun i =>
        FP.fin (qs.getD i 0 *
          (if i + 1 = qs.length then 0 else 1 / 29)))).map
        (fun p => FP.mul p p)
      else (List.range qs.length).map (fun i =>
        FP.fin (qs.getD i 0 *
          (if i + 1 = qs.length then 0 else 1 / 29)))) =
      ((List.range qs.length).map g).map FP.fin := by
    subst hg
    by_cases hb : sq.getD true
    · simp only [hb, if_true, List.map_map]
      exact List.map_congr_left fun i _ => by simp [FP.mul]
    · simp only [hb, if_false, List.map_map]
      exact List.map_congr_left fun i _ => by simp
  simp only [hsq, FP.listSum_map_fin, FP.isNan, Bool.false_eq_true,
    if_false]

/-- Claim C5, counterexample: on the freshly constructed model (zero
ingested samples) at position 0 with a valid context,
`generate_probability_distribution` does NOT fail: it returns Ok with a
finite, strictly positive probability sum (the position-0 histogram
slice is empty, so the 0/0 NaN never arises). -/
theorem c5_degenerate_sum_counterexample :
    distSumPos (NameExperiments.fresh.generate_probability_distribution 2
      [ValidChar.null, ValidChar.null] [CharType.Null, CharType.Null] 0
      none none none) = true := by
  obtain ⟨qs, w, hlen29, hpos, hctp⟩ := ctp_all_entries_fin 2
    NameExperiments.fresh [ValidChar.null, ValidChar.null]
    [CharType.Null, CharType.Null] (by norm_num) (by norm_num)
  rw [generate_eq_of_ctp_zero 2 NameExperiments.fresh _ _ none none none
    qs w _ hctp rfl]
  simp only [distSumPos, decide_eq_true_eq]
  set g : ℕ → ℚ := fun i =>
    (if (none : Option Bool).getD true then (fun x : ℚ => x * x) else id)
      (qs.getD i 0 * (if i + 1 = qs.length then 0 else 1 / 29)) with hgdef
  have hnonneg : ∀ x ∈ (List.range qs.length).map g, (0 : ℚ) ≤ x := by
    intro x hx
    obtain ⟨i, hi, rfl⟩ := List.mem_map.mp hx
    rw [hgdef]
    simp only [Option.getD_none, if_true]
    exact mul_self_nonneg _
  have hg0 : 0 < g 0 := by
    rw [hgdef]
    simp only [Option.getD_none, if_true]
    have hq0 : 0 < qs.getD 0 0 := hpos 0 (by norm_num)
    have hfac : (if 0 + 1 = qs.length then (0 : ℚ) else 1 / 29) = 1 / 29 := by
      rw [if_neg (by omega)]
    rw [hfac]
    have hb : 0 < qs.getD 0 0 * (1 / 29 : ℚ) := by positivity
    exact mul_pos hb hb
  have hmm : g 0 ∈ (List.range qs.length).map g :=
    List.mem_map.mpr ⟨0, List.mem_range.mpr (by omega), rfl⟩
  have := List.single_le_sum hnonneg _ hmm
  linarith

theorem expAnn_ctp_entry_0 :
    ctpEntry (char_type_combined_probs 2 expAnn
      [ValidChar.null, ValidChar.null] [CharType.Null, CharType.Null] 1 1)
      0 = .fin (1/1105) := by
  have hctp0 := char_type_combined_probs_ok 2 expAnn
    [ValidChar.null, ValidChar.null] [CharType.Null, CharType.Null] 1 1
    (by norm_num) (by norm_num)
  rw [hctp0]
  simp only [ctpEntry]
  rw [getD_range_map _ _ _ (by norm_num)]
  have hidx : NGramWeights.row_index_val 2 29
      ([ValidChar.null, ValidChar.null].map ValidChar.toUsize) = 840 := by
    decide
  have hidxT : NGramWeights.row_index_val 2 10
      ([CharType.Null, CharType.Null].map CharType.toUsize) = 99 := by
    decide
  have hcand : (CharType.tryFromWindow
      { diag_window [ValidChar.null, ValidChar.null] with
        s3 := ValidChar.ALLCHARS.getD 0 ValidChar.null }).toUsize = 0 := by
    decide
  rw [hidx, hidxT, hcand]
  have hpw : expAnn.positive_char_samples.weights 840 0 = 3 := by decide
  have hps : expAnn.positive_char_samples.sum 840 = 5 := by decide
  have hns : expAnn.negative_char_samples.sum 840 = 0 := by decide
  have hptw : expAnn.positive_char_type_samples.weights 99 0 = 0 := by decide
  have hpts : expAnn.positive_char_type_samples.sum 99 = 3 := by decide
  have hnts : expAnn.negative_char_type_samples.sum 99 = 0 := by decide
  have hntw : expAnn.negative_char_type_samples.weights 99 0 = 0 := by decide
  rw [show combined_char_prob (expAnn.positive_char_samples.weights 840)
      (expAnn.negative_char_samples.weights 840)
      (expAnn.positive_char_samples.sum 840)
      (expAnn.negative_char_samples.sum 840) 1 1 0 = .fin (4/34) from by
    norm_num [combined_char_prob, hpw, hps, hns, FP.div_fin_fin]]
  rw [show combined_type_prob (expAnn.positive_char_type_samples.weights 99)
      (expAnn.negative_char_type_samples.weights 99)
      (expAnn.positive_char_type_samples.sum 99)
      (expAnn.negative_char_type_samples.sum 99) 1 1 0 = .fin (1/130) from by
    norm_num [combined_type_prob, hptw, hpts, hnts, hntw, rustUsizeSub,
      FP.div_fin_fin, FP.mul]]
  show FP.fin ((4 : ℚ)/34 * (1/130)) = .fin (1/1105)
  norm_num

theorem expAnn_ctp_entry_28 :
    ctpEntry (char_type_combined_probs 2 expAnn
      [ValidChar.null, ValidChar.null] [CharType.Null, CharType.Null] 1 1)
      28 = .fin (3/1105) := by
  have hctp0 := char_type_combined_probs_ok 2 expAnn
    [ValidChar.null, ValidChar.null] [CharType.Null, CharType.Null] 1 1
    (by norm_num) (by norm_num)
  rw [hctp0]
  simp only [ctpEntry]
  rw [getD_range_map _ _ _ (by norm_num)]
  have hidx : NGramWeights.row_index_val 2 29
      ([ValidChar.null, ValidChar.null].map ValidChar.toUsize) = 840 := by
    decide
  have hidxT : NGramWeights.row_index_val 2 10
      ([CharType.Null, CharType.Null].map CharType.toUsize) = 99 := by
    decide
  have hcand : (CharType.tryFromWindow
      { diag_window [ValidChar.null, ValidChar.null] with
        s3 := ValidChar.ALLCHARS.getD 28 ValidChar.null }).toUsize = 9 := by
    decide
  rw [hidx, hidxT, hcand]
  have hpw : expAnn.positive_char_samples.weights 840 28 = 2 := by decide
  have hps : expAnn.positive_char_samples.sum 840 = 5 := by decide
  have hns : expAnn.negative_char_samples.sum 840 = 0 := by decide
  have hptw : expAnn.positive_char_type_samples.weights 99 9 = 3 := by decide
  have hpts : expAnn.positive_char_type_samples.sum 99 = 3 := by decide
  have hnts : expAnn.negative_char_type_samples.sum 99 = 0 := by decide
  have hntw : expAnn.negative_char_type_samples.weights 99 9 = 0 := by decide
  rw [show combined_char_prob (expAnn.positive_char_samples.weights 840)
      (expAnn.negative_char_samples.weights 840)
      (expAnn.positive_char_samples.sum 840)
      (expAnn.negative_char_samples.sum 840) 1 1 28 = .fin (3/34) from by
    norm_num [combined_char_prob, hpw, hps, hns, FP.div_fin_fin]]
  rw [show combined_type_prob (expAnn.positive_char_type_samples.weights 99)
      (expAnn.negative_char_type_samples.weights 99)
      (expAnn.positive_char_type_samples.sum 99)
      (expAnn.negative_char_type_samples.sum 99) 1 1 9 = .fin (4/130) from by
    norm_num [combined_type_prob, hptw, hpts, hnts, hntw, rustUsizeSub,
      FP.div_fin_fin, FP.mul]]
  show FP.fin ((3 : ℚ)/34 * (4/130)) = .fin (3/1105)
  norm_num

/-- Claim C1, counterexample: on the reachable model `expAnn`
(histogram `([2,3], 5)`) at position 1 with the all-null context, the
combined probability of candidate 0 before the ending stage is
`1/1105`, but the final entry is `3/160225 = (1/1105)·((1-2/5)/29)` —
an extra division by the alphabet size 29 — which differs from
`pre · continuation` under either reading of the claim (`3/5` for
lengths strictly below the position, `0` for lengths at-or-below), and
the terminator entry `6/5525 = (3/1105)·(2/5)` uses the mass of
lengths strictly below the position, not the at-or-before mass `1`. -/
theorem c1_length_scaling_counterexample :
    expAnn.name_sizes = ([2, 3], 5) ∧
    ctpEntry (char_type_combined_probs 2 expAnn
      [ValidChar.null, ValidChar.null] [CharType.Null, CharType.Null] 1 1)
      0 = .fin (1/1105) ∧
    ctpEntry (char_type_combined_probs 2 expAnn
      [ValidChar.null, ValidChar.null] [CharType.Null, CharType.Null] 1 1)
      28 = .fin (3/1105) ∧
    distEntry (expAnn.generate_probability_distribution 2
      [ValidChar.null, ValidChar.null] [CharType.Null, CharType.Null] 1
      none none (some false)) 0 = .fin (3/160225) ∧
    distEntry (expAnn.generate_probability_distribution 2
      [ValidChar.null, ValidChar.null] [CharType.Null, CharType.Null] 1
      none none (some false)) 28 = .fin (6/5525) ∧
    (3/160225 : ℚ) ≠ 1/1105 * (3/5) ∧
    (3/160225 : ℚ) ≠ 1/1105 * 1 ∧
    (3/160225 : ℚ) ≠ 1/1105 * 0 ∧
    (6/5525 : ℚ) ≠ 3/1105 * 1 := by
  obtain ⟨qs, w, hlen29, hpos, hctp⟩ := ctp_all_entries_fin 2 expAnn
    [ValidChar.null, ValidChar.null] [CharType.Null, CharType.Null]
    (by norm_num) (by norm_num)
  have hq0 : qs.getD 0 0 = 1/1105 := by
    have h1 : ctpEntry (char_type_combined_probs 2 expAnn
        [ValidChar.null, ValidChar.null] [CharType.Null, CharType.Null] 1 1)
        0 = .fin (qs.getD 0 0) := by
      rw [hctp]
      simp only [ctpEntry]
      exact getD_map_fin qs 0 (by omega)
    have h2 := expAnn_ctp_entry_0
    rw [h1] at h2
    exact FP.fin.inj h2
  have hq28 : qs.getD 28 0 = 3/1105 := by
    have h1 : ctpEntry (char_type_combined_probs 2 expAnn
        [ValidChar.null, ValidChar.null] [CharType.Null, CharType.Null] 1 1)
        28 = .fin (qs.getD 28 0) := by
      rw [hctp]
      simp only [ctpEntry]
      exact getD_map_fin qs 28 (by omega)
    have h2 := expAnn_ctp_entry_28
    rw [h1] at h2
    exact FP.fin.inj h2
  have he : (2/5 : ℚ) =
      (∑ k ∈ Finset.range 1, (expAnn.name_sizes.1.getD k 0 : ℚ)) /
        (expAnn.name_sizes.2 : ℚ) := by
    rw [Finset.sum_range_one,
      show expAnn.name_sizes.1.getD 0 0 = 2 from by decide,
      show expAnn.name_sizes.2 = 5 from by decide]
    norm_num
  have hcc : ¬ expAnn.name_sizes.1.length < 1 := by decide
  have htot : expAnn.name_sizes.2 ≠ 0 := by decide
  have hd0 := generate_entry_from_ctp 2 expAnn
    [ValidChar.null, ValidChar.null] [CharType.Null, CharType.Null] 1
    none none qs w (2/5) hctp hcc htot he 0 (by omega)
  have hd28 := generate_entry_from_ctp 2 expAnn
    [ValidChar.null, ValidChar.null] [CharType.Null, CharType.Null] 1
    none none qs w (2/5) hctp hcc htot he 28 (by omega)
  rw [hq0, if_neg (by omega)] at hd0
  rw [hq28, if_pos (by omega)] at hd28
  refine ⟨by decide, expAnn_ctp_entry_0, expAnn_ctp_entry_28, ?_, ?_,
    by norm_num, by norm_num, by norm_num, by norm_num⟩
  · rw [hd0]
    norm_num
  · rw [hd28]
    norm_num

/-- Claim C1 (amended): in `generate_probability_distribution`'s
name-ending stage, for every histogram with a positive total and every
position within the bucket list, each non-terminator candidate is
multiplied by the continuation probability divided by the alphabet
size 29 (an additional 1/29 factor), and the terminator candidate (the
last entry) is multiplied by the end probability, where the end
probability is the histogram mass of lengths strictly below the
current position divided by the total. -/
theorem c1_length_scaling_amended (hist : List ℕ) (total cc : ℕ)
    (qs : List ℚ) (e : ℚ) (hcc : ¬ hist.length < cc) (htot : total ≠ 0)
    (he : e = (∑ k ∈ Finset.range cc, (hist.getD k 0 : ℚ)) / total) :
    apply_length_stats (hist, total) cc (qs.map FP.fin) =
      .ok ((List.range qs.length).map (fun i =>
        FP.fin (qs.getD i 0 *
          (if i + 1 = qs.length then e else (1 - e) / 29)))) :=
  apply_length_stats_fin hist total cc qs e hcc htot he

/-- Claim C1, witness: histogram `([2,3], 5)` at position 1 with unit
input probabilities. -/
theorem c1_length_scaling_witness :
    apply_length_stats ([2, 3], 5) 1 ([(2 : ℚ), 3].map FP.fin) =
      .ok [FP.fin (6/145), FP.fin (6/5)] := by
  have h := c1_length_scaling_amended [2, 3] 5 1 [2, 3] (2/5)
    (by norm_num) (by norm_num)
    (by rw [Finset.sum_range_one]; norm_num)
  rw [h]
  norm_num [List.range_succ]

/-- Claim C5 (amended): on the freshly constructed (zero-sample) model
`generate_probability_distribution` fails with the NaN/degenerate error
at position 1 for every valid context (the histogram division 0/0
propagates); and on every reachable model with at least one ingested
sample, for every valid context and every position within the length
histogram, it succeeds with a finite, strictly positive sum.  The
failure check in the code is exactly `is_nan` on the computed sum. -/
theorem c5_degenerate_sum_amended :
    (∀ (N : ℕ) (cseq : List ValidChar) (tseq : List CharType),
      ¬ cseq.length < N → ¬ tseq.length < N →
      NameExperiments.fresh.generate_probability_distribution N cseq tseq 1
        none none none = .err "Sum of probabilities produced a nan") ∧
    (∀ (N : ℕ) (exp : NameExperiments) (cseq : List ValidChar)
      (tseq : List CharType) (cc : ℕ) (sq : Option Bool),
      NameExperiments.Reachable N exp → 0 < exp.name_sizes.2 →
      ¬ exp.name_sizes.1.length < cc →
      ¬ cseq.length < N → ¬ tseq.length < N →
      distSumPos (exp.generate_probability_distribution N cseq tseq cc
        none none sq) = true) :=
  ⟨c5_part_a, c5_part_b⟩

theorem reachable_expA : NameExperiments.Reachable 2 expA := by
  refine NameExperiments.Reachable.step NameExperiments.fresh expA
    [some 'a', none] .Pos NameExperiments.Reachable.base ?_
  rfl

/-- Claim C5, witness: the fresh model errors at position 1; the model
trained on the single positive sample "a" succeeds at position 1 with
a positive sum. -/
theorem c5_degenerate_sum_witness :
    NameExperiments.fresh.generate_probability_distribution 2
      [ValidChar.null, ValidChar.null] [CharType.Null, CharType.Null] 1
      none none none = .err "Sum of probabilities produced a nan" ∧
    distSumPos (expA.generate_probability_distribution 2
      [ValidChar.null, ValidChar.null] [CharType.Null, CharType.Null] 1
      none none none) = true := by
  constructor
  · exact c5_degenerate_sum_amended.1 2 _ _ (by norm_num) (by norm_num)
  · exact c5_degenerate_sum_amended.2 2 expA _ _ 1 none reachable_expA
      (by decide) (by decide) (by norm_num) (by norm_num)

theorem toChar_ne_null (vc : ValidChar) (h : vc ≠ .null) :
    vc.toChar ≠ ValidChar.toChar .null := by
  revert h
  cases vc <;> decide

theorem build_name_loop_bounded (N : ℕ) (exp : NameExperiments)
    (picks : ℕ → ℚ) (B : ℕ) :
    ∀ (fuel : ℕ) (carr : List ValidChar) (tarr : List CharType)
      (name : List Char) (k : ℕ) (nc : ValidChar) (nt : CharType),
      name.length ≤ B → B < name.length + fuel →
      (∀ ch ∈ name, ch ≠ ValidChar.toChar .null) →
      build_name_loop N exp picks B fuel carr tarr name k nc nt ≠ none ∧
      ∀ s, build_name_loop N exp picks B fuel carr tarr name k nc nt =
          some (.ok s) →
        s.length ≤ B ∧ ∀ ch ∈ s, ch ≠ ValidChar.toChar .null := by
  intro fuel
  induction fuel with
  | zero =>
      intro carr tarr name k nc nt hle hlt hname
      exact absurd hle (by omega)
  | succ fuel ih =>
      intro carr tarr name k nc nt hle hlt hname
      rw [build_name_loop]
      by_cases hguard : nc ≠ ValidChar.null ∧ name.length ≠ B
      · rw [if_pos hguard]
        have hname2 : ∀ ch ∈ name ++ [nc.toChar],
            ch ≠ ValidChar.toChar .null := by
          intro ch hch
          rcases List.mem_append.mp hch with hin | hin
          · exact hname ch hin
          · rw [List.mem_singleton.mp hin]
            exact toChar_ne_null nc hguard.1
        have hlen2 : (name ++ [nc.toChar]).length = name.length + 1 := by
          simp
        cases hg : exp.guess_next_char N (picks k) (carr.tail ++ [nc])
            (tarr.tail ++ [nt]) (name ++ [nc.toChar]).length with
        | panicked =>
            simp only [hg]
            exact ⟨by simp, fun s hs => by simp at hs⟩
        | err e =>
            simp only [hg]
            exact ⟨by simp, fun s hs => by simp at hs⟩
        | ok pair =>
            obtain ⟨nc2, nt2⟩ := pair
            simp only [hg]
            exact ih (carr.tail ++ [nc]) (tarr.tail ++ [nt])
              (name ++ [nc.toChar]) (k + 1) nc2 nt2
              (by omega) (by omega) hname2
      · rw [if_neg hguard]
        refine ⟨by simp, fun s hs => ?_⟩
        have hsn : s = name := by
          have := Option.some.inj hs
          exact (RResult.ok.inj this).symm
        subst hsn
        exact ⟨hle, hname⟩

/-- Claim C9: for every model state, every stream of random draws and
every `hard_stop` bound, `build_random_name` terminates within the fuel
bound `hard_stop + 1` (the loop is never cut off by the fuel: the
result is never `none`), and when it returns a string successfully the
string has at most `hard_stop` characters (16 when `None` is supplied)
and contains no terminator character — the loop stops at the first
sampled terminator or at the length bound, whichever comes first. -/
theorem c9_build_random_name_bounded :
    ∀ (N : ℕ) (exp : NameExperiments) (picks : ℕ → ℚ)
      (hard_stop : Option ℕ),
      exp.build_random_name N picks hard_stop ≠ none ∧
      ∀ s, exp.build_random_name N picks hard_stop = some (.ok s) →
        s.length ≤ hard_stop.getD 16 ∧
        ∀ ch ∈ s, ch ≠ ValidChar.toChar .null := by
  intro N exp picks hard_stop
  unfold NameExperiments.build_random_name
  cases hg : exp.guess_next_char N (picks 0) (List.replicate N .null)
      (List.replicate N .Null) 0 with
  | panicked =>
      simp only [hg]
      exact ⟨by simp, fun s hs => by simp at hs⟩
  | err e =>
      simp only [hg]
      exact ⟨by simp, fun s hs => by simp at hs⟩
  | ok pair =>
      obtain ⟨nc, nt⟩ := pair
      simp only [hg]
      exact build_name_loop_bounded N exp picks (hard_stop.getD 16)
        (hard_stop.getD 16 + 1) (List.replicate N .null)
        (List.replicate N .Null) [] 1 nc nt (by simp) (by simp)
        (by intro ch hch; simp at hch)

/-- Claim C9, witness: a concrete run (fresh model, constant-zero
draws, bound 3) is not cut off by the fuel. -/
theorem c9_build_random_name_witness :
    NameExperiments.fresh.build_random_name 2 (fun _ => 0) (some 3) ≠
      none :=
  (c9_build_random_name_bounded 2 NameExperiments.fresh (fun _ => 0)
    (some 3)).1
